import Mathlib

/-!
# Image rotation kernel of `image-conv.cpp`

A shallow embedding of `ImageRot_v1` and of the sentinel fill of `main`.

Modelling conventions.

* A finite `float` or `double` value is the rational it denotes.  Every `float`
  operation is the exact operation followed by rounding to the nearest binary32 value,
  ties to even (`to_float`); likewise `to_double` for the `double` sub-expressions of
  line 110.  A result that is not finite (an infinity or a NaN) is `none`; sums and
  products keep it `none`, and its conversion to `int` is undefined.
* `cos_value` and `sin_value` are `float` objects.  The embedding takes any rational for
  them and converts it to `float` first, as the binding of a `float` parameter does; a
  `float` value is not changed by this (`to_float_idempotent`).
* `int` is the range `[-2^31, 2^31)` and `size_t` the range `[0, 2^64)`.  The conversion
  `int row = item[0]` wraps modulo `2^32` (`size_to_int`), the conversion of an `int` to
  `size_t` wraps modulo `2^64` (`int_to_size`), and `size_t` arithmetic is modulo `2^64`.
  The conversion `(int)x` of a `float` outside the range of `int` is undefined (`none`).
* A host array or SYCL buffer is a `List Pixel`.  An access through an accessor outside
  the buffer has no defined result: the kernel returns `none` there.
* `parallel_for` runs the kernel body once for every id of the two dimensional range, in
  an order chosen by the queue.  The queue is represented by that order (the argument
  `q`), and a run is the sequential execution of the work items in that order.  A unit
  loads only from the source buffer, which no unit stores to, and performs at most one
  store, so an interleaved execution has the effect of the sequential one that orders
  the units by their stores.
-/

namespace ImageConv

/-- A pixel sample, `float` in the source.  Samples are only copied, never computed on. -/
abbrev Pixel := ℚ

/-! ### Binary floating point -/

/-- The position of the leading binary digit of `n`, found by halving; `fuel` bounds the
number of halvings. -/
def log2_floor_aux : Nat → Nat → Nat
  | 0, _ => 0
  | fuel + 1, n => if n < 2 then 0 else log2_floor_aux fuel (n / 2) + 1

/-- The position of the leading binary digit of `n`: the largest `k` with `2^k <= n`. -/
def log2_floor (n : Nat) : Nat :=
  log2_floor_aux n n

/-- The binary exponent of a non-zero rational: the integer `e` with
`2^e <= |x| < 2^(e+1)`. -/
def binade (x : ℚ) : Int :=
  let e0 : Int := (log2_floor x.num.natAbs : Int) - (log2_floor x.den : Int)
  if (2 : ℚ) ^ e0 ≤ |x| then e0 else e0 - 1

/-- The integer nearest to `x`, the even one of the two when `x` is half way. -/
def round_half_even (x : ℚ) : Int :=
  if x - ⌊x⌋ < 1 / 2 then ⌊x⌋
  else if 1 / 2 < x - ⌊x⌋ then ⌊x⌋ + 1
  else if ⌊x⌋ % 2 = 0 then ⌊x⌋ else ⌊x⌋ + 1

/-- Rounding to the nearest multiple of the quantum of `x` in a binary format with `prec`
significand bits and least quantum `2^emin`, ties to even, the exponent unbounded above. -/
def round_to_quantum (prec : Nat) (emin : Int) (x : ℚ) : ℚ :=
  if x = 0 then 0
  else
    (round_half_even (x / (2 : ℚ) ^ (max (binade x - ((prec : Int) - 1)) emin)) : ℚ) *
      (2 : ℚ) ^ (max (binade x - ((prec : Int) - 1)) emin)

/-- Rounding to the nearest value of a binary format with `prec` significand bits, least
quantum `2^emin` and finite values below `2^(emax+1)`, ties to even.  The result is `none`
when the rounded value is not finite in the format. -/
def round_to_format (prec : Nat) (emin emax : Int) (x : ℚ) : Option ℚ :=
  if |round_to_quantum prec emin x| < (2 : ℚ) ^ (emax + 1) then
    some (round_to_quantum prec emin x)
  else none

/-- Rounding to `float` (binary32): 24 significand bits, least quantum `2^-149`, finite
values below `2^128`. -/
def to_float (x : ℚ) : Option ℚ :=
  round_to_format 24 (-149) 127 x

/-- Rounding to `double` (binary64): 53 significand bits, least quantum `2^-1074`, finite
values below `2^1024`. -/
def to_double (x : ℚ) : Option ℚ :=
  round_to_format 53 (-1074) 1023 x

/-! ### Machine integers -/

/-- The conversion of a `size_t` value to `int` (`int row = item[0]`, lines 87-88): the
value modulo `2^32`, read as a two's complement number. -/
def size_to_int (n : Nat) : Int :=
  ((n + 2 ^ 31) % 2 ^ 32 : Nat) - 2 ^ 31

/-- The conversion of an `int` to `size_t` in a mixed comparison or index expression: the
value modulo `2^64`. -/
def int_to_size (i : Int) : Nat :=
  (i % 2 ^ 64).toNat

/-- The conversion `(int)x` of lines 113-114: the fractional part of `x` is discarded
(quotient of numerator by denominator rounding toward zero); undefined when the result
is not an `int`. -/
def float_to_int (x : ℚ) : Option Int :=
  if -2 ^ 31 ≤ Int.tdiv x.num x.den ∧ Int.tdiv x.num x.den ≤ 2 ^ 31 - 1 then
    some (Int.tdiv x.num x.den)
  else none

/-! ### The kernel -/

/-- Line 109: `x_rotated = cos_value * (float)(x1 - x0) + sin_value * (float)(y1 - y0)`
with `x0 = y0 = 0`, every operation in `float`.  `cos_value` and `sin_value` are `float`
objects: the given numbers are converted to `float` first, which changes nothing when
they are `float` values. -/
def x_rotated (cos_value sin_value : ℚ) (x1 y1 : Int) : Option ℚ := do
  let c ← to_float cos_value
  let s ← to_float sin_value
  let x0 : Int := 0
  let y0 : Int := 0
  let fx ← to_float ((x1 - x0 : Int) : ℚ)
  let fy ← to_float ((y1 - y0 : Int) : ℚ)
  let p1 ← to_float (c * fx)
  let p2 ← to_float (s * fy)
  to_float (p1 + p2)

/-- Line 110: `y_rotated = (-1.0) * sin_value * (float)(x1 - x0) +
cos_value * (float)(y1 - y0)`.  `-1.0` is a `double`, so the first product and the sum are
evaluated in `double`; the second product has two `float` operands and is evaluated in
`float`; the sum is converted to `float` by the assignment. -/
def y_rotated (cos_value sin_value : ℚ) (x1 y1 : Int) : Option ℚ := do
  let c ← to_float cos_value
  let s ← to_float sin_value
  let x0 : Int := 0
  let y0 : Int := 0
  let fx ← to_float ((x1 - x0 : Int) : ℚ)
  let fy ← to_float ((y1 - y0 : Int) : ℚ)
  let d1 ← to_double ((-1 : ℚ) * s)
  let d2 ← to_double (d1 * fx)
  let p3 ← to_float (c * fy)
  let d3 ← to_double (d2 + p3)
  to_float d3

/-- Lines 91-114 of the kernel body: the destination coordinates `(x2, y2)` computed for
the source coordinates `x1 = row`, `y1 = col` about the origin `x0 = 0`, `y0 = 0`. -/
def rotated_coords (cos_value sin_value : ℚ) (row col : Int) : Option (Int × Int) := do
  let x1 : Int := row
  let y1 : Int := col
  let xr ← x_rotated cos_value sin_value x1 y1
  let yr ← y_rotated cos_value sin_value x1 y1
  let x2 ← float_to_int xr
  let y2 ← float_to_int yr
  pure (x2, y2)

/-- The kernel lambda of `ImageRot_v1` (lines 83-124) for the work item `item`, as a
function of the destination buffer.  The result is `none` when a conversion to `int` is
undefined or an accessor is indexed outside its buffer. -/
def ImageRot_v1_kernel (srcPtr dstPtr : List Pixel) (cos_value sin_value : ℚ)
    (ImageRows ImageCols : Nat) (item : Nat × Nat) : Option (List Pixel) :=
  let row : Int := size_to_int item.1
  let col : Int := size_to_int item.2
  match rotated_coords cos_value sin_value row col with
  | none => none
  | some (x2, y2) =>
    if decide (x2 ≥ 0) && decide (int_to_size x2 < ImageCols) &&
        decide (y2 ≥ 0) && decide (int_to_size y2 < ImageRows) then
      match srcPtr[(ImageCols * int_to_size row + int_to_size col) % 2 ^ 64]? with
      | none => none
      | some v =>
        if (ImageCols * int_to_size y2 + int_to_size x2) % 2 ^ 64 < dstPtr.length then
          some (dstPtr.set ((ImageCols * int_to_size y2 + int_to_size x2) % 2 ^ 64) v)
        else none
    else some dstPtr

/-- The ids of `range<2> num_items{ImageRows, ImageCols}` (line 65), row by row. -/
def num_items (ImageRows ImageCols : Nat) : List (Nat × Nat) :=
  (List.range ImageRows).flatMap fun row => (List.range ImageCols).map fun col => (row, col)

/-- The function `ImageRot_v1` (lines 54-127).  `image_in` and `image_out` are the floats
the two buffers are created over (lines 60-61), `q` is the order in which the queue
executes the work items; the result is the content of `image_out` once the submitted
command group has completed. -/
def ImageRot_v1 (q : List (Nat × Nat)) (image_in image_out : List Pixel)
    (cos_value sin_value : ℚ) (ImageRows ImageCols : Nat) : Option (List Pixel) :=
  q.foldlM
    (fun dstPtr item =>
      ImageRot_v1_kernel image_in dstPtr cos_value sin_value ImageRows ImageCols item)
    image_out

/-- Lines 163-165 of `main`: the output image, filled with `1234.0`. -/
def hOutputImage (imageRows imageCols : Nat) : List Pixel :=
  List.replicate (imageRows * imageCols) 1234

/-! ### Notions used to state the properties -/

/-- Truncation in the words of the specification: the fractional part is discarded
toward zero, so a non-negative value is rounded down and a negative value is rounded up. -/
def truncate_toward_zero (x : ℚ) : Int :=
  if 0 ≤ x then ⌊x⌋ else ⌈x⌉

/-- The rotation formula of the specification without rounding and truncation. -/
def rotate_exact (cos_value sin_value : ℚ) (p : ℚ × ℚ) : ℚ × ℚ :=
  (cos_value * p.1 + sin_value * p.2, -sin_value * p.1 + cos_value * p.2)

/-- The bounds test of the specification on destination coordinates. -/
def in_bounds (ImageRows ImageCols : Nat) (x2 y2 : Int) : Prop :=
  0 ≤ x2 ∧ x2 < (ImageCols : Int) ∧ 0 ≤ y2 ∧ y2 < (ImageRows : Int)

instance (ImageRows ImageCols : Nat) (x2 y2 : Int) :
    Decidable (in_bounds ImageRows ImageCols x2 y2) := by
  unfold in_bounds; exact inferInstance

/-- The destination offset `cols*y2 + x2` of a source pixel whose rotated coordinates are
defined and in bounds, and `none` for any other source pixel. -/
def dest_offset (cos_value sin_value : ℚ) (ImageRows ImageCols : Nat)
    (item : Nat × Nat) : Option Nat :=
  match rotated_coords cos_value sin_value (size_to_int item.1) (size_to_int item.2) with
  | none => none
  | some (x2, y2) =>
    if in_bounds ImageRows ImageCols x2 y2 then some (ImageCols * y2.toNat + x2.toNat)
    else none

/-- The last unit of the execution order `q` whose in-bounds destination offset is `k`. -/
def last_writer (cos_value sin_value : ℚ) (ImageRows ImageCols : Nat)
    (q : List (Nat × Nat)) (k : Nat) : Option (Nat × Nat) :=
  q.reverse.find? fun item =>
    decide (dest_offset cos_value sin_value ImageRows ImageCols item = some k)

/-- The effect of one unit on the destination as a total function: the store at the
destination offset when there is one, nothing otherwise. -/
def unit_effect (srcPtr : List Pixel) (cos_value sin_value : ℚ)
    (ImageRows ImageCols : Nat) (dstPtr : List Pixel) (item : Nat × Nat) : List Pixel :=
  match dest_offset cos_value sin_value ImageRows ImageCols item with
  | none => dstPtr
  | some k => dstPtr.set k (srcPtr.getD (ImageCols * item.1 + item.2) 0)

/-! ### Rounding -/

theorem log2_floor_aux_spec : ∀ (fuel n : Nat), 0 < n → n ≤ fuel →
    2 ^ log2_floor_aux fuel n ≤ n ∧ n < 2 ^ (log2_floor_aux fuel n + 1) := by
  intro fuel
  induction fuel with
  | zero => intro n h0 h1; omega
  | succ fuel ih =>
    intro n h0 h1
    unfold log2_floor_aux
    by_cases h2 : n < 2
    · rw [if_pos h2]
      constructor
      · simpa using h0
      · simpa using h2
    · rw [if_neg h2]
      have hm : 0 < n / 2 := Nat.div_pos (Nat.le_of_not_lt h2) (by decide)
      have hle : n / 2 ≤ fuel := by omega
      obtain ⟨ih1, ih2⟩ := ih (n / 2) hm hle
      have e1 : 2 ^ (log2_floor_aux fuel (n / 2) + 1) =
          2 * 2 ^ log2_floor_aux fuel (n / 2) := by rw [pow_succ]; ring
      have e2 : 2 ^ (log2_floor_aux fuel (n / 2) + 1 + 1) =
          2 * (2 * 2 ^ log2_floor_aux fuel (n / 2)) := by rw [pow_succ, pow_succ]; ring
      rw [e1] at ih2
      rw [e1, e2]
      constructor <;> omega

theorem log2_floor_spec {n : Nat} (h : 0 < n) :
    2 ^ log2_floor n ≤ n ∧ n < 2 ^ (log2_floor n + 1) :=
  log2_floor_aux_spec n n h (Nat.le_refl n)

theorem binade_spec {x : ℚ} (hx : x ≠ 0) :
    (2 : ℚ) ^ binade x ≤ |x| ∧ |x| < (2 : ℚ) ^ (binade x + 1) := by
  have hn : 0 < x.num.natAbs := Int.natAbs_pos.mpr (Rat.num_ne_zero.mpr hx)
  have hd : 0 < x.den := x.den_pos
  obtain ⟨hn1, hn2⟩ := log2_floor_spec hn
  obtain ⟨hd1, hd2⟩ := log2_floor_spec hd
  have habs : |x| = (x.num.natAbs : ℚ) / (x.den : ℚ) := by
    have h1 : x = (x.num : ℚ) / (x.den : ℚ) := (Rat.num_div_den x).symm
    have h2 : (0 : ℚ) < (x.den : ℚ) := by exact_mod_cast hd
    conv_lhs => rw [h1]
    rw [abs_div, abs_of_pos h2, Nat.cast_natAbs, Int.cast_abs]
  have hdq : (0 : ℚ) < (x.den : ℚ) := by exact_mod_cast hd
  have hn1q : (2 : ℚ) ^ log2_floor x.num.natAbs ≤ (x.num.natAbs : ℚ) := by exact_mod_cast hn1
  have hn2q : (x.num.natAbs : ℚ) < (2 : ℚ) ^ (log2_floor x.num.natAbs + 1) := by
    exact_mod_cast hn2
  have hd1q : (2 : ℚ) ^ log2_floor x.den ≤ (x.den : ℚ) := by exact_mod_cast hd1
  have hd2q : (x.den : ℚ) < (2 : ℚ) ^ (log2_floor x.den + 1) := by exact_mod_cast hd2
  have hpa : (0 : ℚ) < (2 : ℚ) ^ log2_floor x.num.natAbs := by positivity
  have hpb : (0 : ℚ) < (2 : ℚ) ^ log2_floor x.den := by positivity
  have two_ne : (2 : ℚ) ≠ 0 := by norm_num
  -- the two candidate exponents
  have hup : |x| < (2 : ℚ) ^ ((log2_floor x.num.natAbs : Int) - (log2_floor x.den : Int) + 1) := by
    rw [habs, div_lt_iff₀ hdq]
    have e : (2 : ℚ) ^ ((log2_floor x.num.natAbs : Int) - (log2_floor x.den : Int) + 1) =
        (2 : ℚ) ^ (log2_floor x.num.natAbs + 1) / (2 : ℚ) ^ log2_floor x.den := by
      rw [show ((log2_floor x.num.natAbs : Int) - (log2_floor x.den : Int) + 1) =
        ((log2_floor x.num.natAbs + 1 : Nat) : Int) - ((log2_floor x.den : Nat) : Int) by
          push_cast; ring]
      rw [zpow_sub₀ two_ne, zpow_natCast, zpow_natCast]
    rw [e, div_mul_eq_mul_div, lt_div_iff₀ hpb]
    calc (x.num.natAbs : ℚ) * (2 : ℚ) ^ log2_floor x.den
        ≤ (x.num.natAbs : ℚ) * (x.den : ℚ) :=
          mul_le_mul_of_nonneg_left hd1q (Nat.cast_nonneg _)
      _ < (2 : ℚ) ^ (log2_floor x.num.natAbs + 1) * (x.den : ℚ) :=
          mul_lt_mul_of_pos_right hn2q hdq
  have hlow : (2 : ℚ) ^ ((log2_floor x.num.natAbs : Int) - (log2_floor x.den : Int) - 1) ≤ |x| := by
    rw [habs, le_div_iff₀ hdq]
    have e : (2 : ℚ) ^ ((log2_floor x.num.natAbs : Int) - (log2_floor x.den : Int) - 1) =
        (2 : ℚ) ^ log2_floor x.num.natAbs / (2 : ℚ) ^ (log2_floor x.den + 1) := by
      rw [show ((log2_floor x.num.natAbs : Int) - (log2_floor x.den : Int) - 1) =
        ((log2_floor x.num.natAbs : Nat) : Int) - ((log2_floor x.den + 1 : Nat) : Int) by
          push_cast; ring]
      rw [zpow_sub₀ two_ne, zpow_natCast, zpow_natCast]
    rw [e, div_mul_eq_mul_div, div_le_iff₀ (by positivity)]
    calc (2 : ℚ) ^ log2_floor x.num.natAbs * (x.den : ℚ)
        ≤ (2 : ℚ) ^ log2_floor x.num.natAbs * (2 : ℚ) ^ (log2_floor x.den + 1) :=
          mul_le_mul_of_nonneg_left (le_of_lt hd2q) (le_of_lt hpa)
      _ ≤ (x.num.natAbs : ℚ) * (2 : ℚ) ^ (log2_floor x.den + 1) :=
          mul_le_mul_of_nonneg_right hn1q (by positivity)
  unfold binade
  simp only []
  split_ifs with h
  · exact ⟨h, hup⟩
  · refine ⟨hlow, ?_⟩
    rw [sub_add_cancel]
    exact lt_of_not_le h

theorem round_half_even_err (x : ℚ) : |(round_half_even x : ℚ) - x| ≤ 1 / 2 := by
  have h1 := Int.floor_le x
  have h2 := Int.lt_floor_add_one x
  unfold round_half_even
  rw [abs_le]
  split_ifs with a b c
  · constructor <;> linarith
  · push_cast; constructor <;> linarith
  · push_cast at a b ⊢; constructor <;> linarith
  · push_cast at a b ⊢; constructor <;> linarith

theorem round_half_even_intCast (n : Int) : round_half_even (n : ℚ) = n := by
  unfold round_half_even
  simp

theorem two_zpow_pos (e : Int) : (0 : ℚ) < (2 : ℚ) ^ e :=
  zpow_pos (by norm_num) e

/-- Rounding moves a value by at most half a quantum: by at most `|x| * 2^-prec` in the
normal range and by at most `2^(emin-1)` below it. -/
theorem round_to_quantum_err (prec : Nat) (emin : Int) (x : ℚ) :
    |round_to_quantum prec emin x - x| ≤
      |x| * (2 : ℚ) ^ (-(prec : Int)) + (2 : ℚ) ^ (emin - 1) := by
  unfold round_to_quantum
  by_cases hx : x = 0
  · rw [if_pos hx, hx]
    simp only [sub_self, abs_zero, zero_mul, zero_add]
    exact le_of_lt (two_zpow_pos _)
  · rw [if_neg hx]
    obtain ⟨hb1, _⟩ := binade_spec hx
    set e : Int := max (binade x - ((prec : Int) - 1)) emin with he
    have hpe : (0 : ℚ) < (2 : ℚ) ^ e := two_zpow_pos e
    have hr := round_half_even_err (x / (2 : ℚ) ^ e)
    have hsplit : (round_half_even (x / (2 : ℚ) ^ e) : ℚ) * (2 : ℚ) ^ e - x =
        ((round_half_even (x / (2 : ℚ) ^ e) : ℚ) - x / (2 : ℚ) ^ e) * (2 : ℚ) ^ e := by
      field_simp
    rw [hsplit, abs_mul, abs_of_pos hpe]
    have h1 : |(round_half_even (x / (2 : ℚ) ^ e) : ℚ) - x / (2 : ℚ) ^ e| * (2 : ℚ) ^ e ≤
        1 / 2 * (2 : ℚ) ^ e := mul_le_mul_of_nonneg_right hr (le_of_lt hpe)
    have h2 : 1 / 2 * (2 : ℚ) ^ e = (2 : ℚ) ^ (e - 1) := by
      rw [zpow_sub₀ (by norm_num : (2 : ℚ) ≠ 0), zpow_one]; ring
    have h3 : (2 : ℚ) ^ (e - 1) ≤
        |x| * (2 : ℚ) ^ (-(prec : Int)) + (2 : ℚ) ^ (emin - 1) := by
      rcases le_total (binade x - ((prec : Int) - 1)) emin with hle | hle
      · have : e = emin := by rw [he]; exact max_eq_right hle
        rw [this]
        have : (0 : ℚ) ≤ |x| * (2 : ℚ) ^ (-(prec : Int)) :=
          mul_nonneg (abs_nonneg x) (le_of_lt (two_zpow_pos _))
        linarith
      · have : e = binade x - ((prec : Int) - 1) := by rw [he]; exact max_eq_left hle
        rw [this]
        have e1 : (2 : ℚ) ^ (binade x - ((prec : Int) - 1) - 1) =
            (2 : ℚ) ^ binade x * (2 : ℚ) ^ (-(prec : Int)) := by
          rw [← zpow_add₀ (by norm_num : (2 : ℚ) ≠ 0)]
          congr 1; ring
        rw [e1]
        have h4 : (2 : ℚ) ^ binade x * (2 : ℚ) ^ (-(prec : Int)) ≤
            |x| * (2 : ℚ) ^ (-(prec : Int)) :=
          mul_le_mul_of_nonneg_right hb1 (le_of_lt (two_zpow_pos _))
        have := two_zpow_pos (emin - 1)
        linarith
    linarith

/-- A multiple `m * 2^k` of a power of two with less than `prec` significant bits and
`k` not below the least quantum is not changed by rounding. -/
theorem round_to_quantum_exact (prec : Nat) (emin : Int) (m k : Int)
    (hm : |m| < 2 ^ prec) (hk : emin ≤ k) :
    round_to_quantum prec emin ((m : ℚ) * (2 : ℚ) ^ k) = (m : ℚ) * (2 : ℚ) ^ k := by
  unfold round_to_quantum
  by_cases hx : (m : ℚ) * (2 : ℚ) ^ k = 0
  · rw [if_pos hx, hx]
  · rw [if_neg hx]
    obtain ⟨hb1, _⟩ := binade_spec hx
    set x : ℚ := (m : ℚ) * (2 : ℚ) ^ k with hxdef
    set e : Int := max (binade x - ((prec : Int) - 1)) emin with he
    have two_ne : (2 : ℚ) ≠ 0 := by norm_num
    have habs : |x| < (2 : ℚ) ^ ((prec : Int) + k) := by
      rw [hxdef, abs_mul, abs_of_pos (two_zpow_pos k), zpow_add₀ two_ne, zpow_natCast]
      have : |(m : ℚ)| < (2 : ℚ) ^ prec := by
        have h := hm
        have : ((|m| : Int) : ℚ) < (((2 : Int) ^ prec : Int) : ℚ) := by exact_mod_cast h
        simpa using this
      exact mul_lt_mul_of_pos_right this (two_zpow_pos k)
    have hlt : (2 : ℚ) ^ binade x < (2 : ℚ) ^ ((prec : Int) + k) := lt_of_le_of_lt hb1 habs
    have hb : binade x < (prec : Int) + k :=
      (zpow_lt_zpow_iff_right₀ (by norm_num : (1 : ℚ) < 2)).mp hlt
    have hek : e ≤ k := by
      rw [he]
      exact max_le (by omega) hk
    obtain ⟨j, hj⟩ : ∃ j : Nat, k = e + j := ⟨(k - e).toNat, by omega⟩
    have hdiv : x / (2 : ℚ) ^ e = ((m * 2 ^ j : Int) : ℚ) := by
      rw [hxdef, hj, zpow_add₀ two_ne, zpow_natCast]
      push_cast
      field_simp
      ring
    rw [hdiv, round_half_even_intCast, hxdef, hj, zpow_add₀ two_ne, zpow_natCast]
    push_cast
    ring

theorem round_to_format_eq_some {prec : Nat} {emin emax : Int} {x y : ℚ}
    (h : round_to_format prec emin emax x = some y) :
    y = round_to_quantum prec emin x ∧ |y| < (2 : ℚ) ^ (emax + 1) := by
  unfold round_to_format at h
  split_ifs at h with hlt
  have e : round_to_quantum prec emin x = y := Option.some.inj h
  rw [← e]
  exact ⟨rfl, hlt⟩

theorem round_to_format_of_lt {prec : Nat} {emin emax : Int} {x : ℚ}
    (h : |round_to_quantum prec emin x| < (2 : ℚ) ^ (emax + 1)) :
    round_to_format prec emin emax x = some (round_to_quantum prec emin x) := by
  unfold round_to_format
  rw [if_pos h]

/-- The rounding error of a `float` operation. -/
theorem to_float_err {x y : ℚ} (h : to_float x = some y) :
    |y - x| ≤ |x| / 2 ^ 24 + 1 / 2 ^ 150 := by
  obtain ⟨hy, _⟩ := round_to_format_eq_some h
  have := round_to_quantum_err 24 (-149) x
  rw [← hy] at this
  have e1 : (2 : ℚ) ^ (-((24 : Nat) : Int)) = 1 / 2 ^ 24 := by norm_num
  have e2 : (2 : ℚ) ^ ((-149 : Int) - 1) = 1 / 2 ^ 150 := by norm_num
  rw [e1, e2] at this
  linarith

/-- A `float` operation whose exact result is at most `2^64` in magnitude is finite. -/
theorem to_float_defined {x : ℚ} (hx : |x| ≤ 2 ^ 64) :
    ∃ y : ℚ, to_float x = some y ∧ |y - x| ≤ |x| / 2 ^ 24 + 1 / 2 ^ 150 := by
  have herr := round_to_quantum_err 24 (-149) x
  have e1 : (2 : ℚ) ^ (-((24 : Nat) : Int)) = 1 / 2 ^ 24 := by norm_num
  have e2 : (2 : ℚ) ^ ((-149 : Int) - 1) = 1 / 2 ^ 150 := by norm_num
  rw [e1, e2] at herr
  have hlt : |round_to_quantum 24 (-149) x| < (2 : ℚ) ^ ((127 : Int) + 1) := by
    have h1 : |round_to_quantum 24 (-149) x| ≤ |round_to_quantum 24 (-149) x - x| + |x| := by
      have := abs_add (round_to_quantum 24 (-149) x - x) x
      simpa using this
    have e3 : (2 : ℚ) ^ ((127 : Int) + 1) = 2 ^ 128 := by norm_num
    rw [e3]
    have h2 : |x| / 2 ^ 24 ≤ 2 ^ 64 / 2 ^ 24 := by
      apply div_le_div_of_nonneg_right hx; positivity
    have h3 : (2 : ℚ) ^ 64 / 2 ^ 24 + 1 / 2 ^ 150 + 2 ^ 64 < 2 ^ 128 := by norm_num
    linarith
  have hsome : to_float x = some (round_to_quantum 24 (-149) x) :=
    round_to_format_of_lt hlt
  exact ⟨_, hsome, by linarith⟩

/-- The rounding error of a `double` operation. -/
theorem to_double_err {x y : ℚ} (h : to_double x = some y) :
    |y - x| ≤ |x| / 2 ^ 53 + 1 / 2 ^ 1075 := by
  obtain ⟨hy, _⟩ := round_to_format_eq_some h
  have := round_to_quantum_err 53 (-1074) x
  rw [← hy] at this
  have e1 : (2 : ℚ) ^ (-((53 : Nat) : Int)) = 1 / 2 ^ 53 := by norm_num
  have e2 : (2 : ℚ) ^ ((-1074 : Int) - 1) = 1 / 2 ^ 1075 := by norm_num
  rw [e1, e2] at this
  linarith

/-- A `double` operation whose exact result is at most `2^64` in magnitude is finite. -/
theorem to_double_defined {x : ℚ} (hx : |x| ≤ 2 ^ 64) :
    ∃ y : ℚ, to_double x = some y ∧ |y - x| ≤ |x| / 2 ^ 53 + 1 / 2 ^ 1075 := by
  have herr := round_to_quantum_err 53 (-1074) x
  have e1 : (2 : ℚ) ^ (-((53 : Nat) : Int)) = 1 / 2 ^ 53 := by norm_num
  have e2 : (2 : ℚ) ^ ((-1074 : Int) - 1) = 1 / 2 ^ 1075 := by norm_num
  rw [e1, e2] at herr
  have hlt : |round_to_quantum 53 (-1074) x| < (2 : ℚ) ^ ((1023 : Int) + 1) := by
    have h1 : |round_to_quantum 53 (-1074) x| ≤
        |round_to_quantum 53 (-1074) x - x| + |x| := by
      have := abs_add (round_to_quantum 53 (-1074) x - x) x
      simpa using this
    have e3 : (2 : ℚ) ^ ((1023 : Int) + 1) = 2 ^ 1024 := by norm_num
    rw [e3]
    have h2 : |x| / 2 ^ 53 ≤ 2 ^ 64 / 2 ^ 53 := by
      apply div_le_div_of_nonneg_right hx; positivity
    have h3 : (2 : ℚ) ^ 64 / 2 ^ 53 + 1 / 2 ^ 1075 + 2 ^ 64 < 2 ^ 1024 := by norm_num
    linarith
  have hsome : to_double x = some (round_to_quantum 53 (-1074) x) :=
    round_to_format_of_lt hlt
  exact ⟨_, hsome, by linarith⟩

/-- An integer of magnitude at most `2^24` is a `float`. -/
theorem to_float_intCast {n : Int} (hn : |n| ≤ 2 ^ 24) : to_float (n : ℚ) = some (n : ℚ) := by
  have hq : |(n : ℚ)| ≤ 2 ^ 24 := by
    have : ((|n| : Int) : ℚ) ≤ (((2 : Int) ^ 24 : Int) : ℚ) := by exact_mod_cast hn
    simpa using this
  have hex : round_to_quantum 24 (-149) (n : ℚ) = (n : ℚ) := by
    rcases lt_or_eq_of_le hn with hlt | heq
    · have := round_to_quantum_exact 24 (-149) n 0 hlt (by norm_num)
      simpa using this
    · rcases abs_eq (by norm_num : (0 : Int) ≤ 2 ^ 24) |>.mp heq with h | h
      · have := round_to_quantum_exact 24 (-149) 1 24 (by norm_num) (by norm_num)
        rw [h]
        norm_num at this ⊢
        exact this
      · have := round_to_quantum_exact 24 (-149) (-1) 24 (by norm_num) (by norm_num)
        rw [h]
        norm_num at this ⊢
        exact this
  have hlt : |round_to_quantum 24 (-149) (n : ℚ)| < (2 : ℚ) ^ ((127 : Int) + 1) := by
    rw [hex]
    have e3 : (2 : ℚ) ^ ((127 : Int) + 1) = 2 ^ 128 := by norm_num
    rw [e3]
    have : (2 : ℚ) ^ 24 < 2 ^ 128 := by norm_num
    linarith
  have := round_to_format_of_lt hlt
  rw [hex] at this
  exact this

/-- An integer of magnitude at most `2^53` is a `double`. -/
theorem to_double_intCast {n : Int} (hn : |n| ≤ 2 ^ 53) :
    to_double (n : ℚ) = some (n : ℚ) := by
  have hq : |(n : ℚ)| ≤ 2 ^ 53 := by
    have : ((|n| : Int) : ℚ) ≤ (((2 : Int) ^ 53 : Int) : ℚ) := by exact_mod_cast hn
    simpa using this
  have hex : round_to_quantum 53 (-1074) (n : ℚ) = (n : ℚ) := by
    rcases lt_or_eq_of_le hn with hlt | heq
    · have := round_to_quantum_exact 53 (-1074) n 0 hlt (by norm_num)
      simpa using this
    · rcases abs_eq (by norm_num : (0 : Int) ≤ 2 ^ 53) |>.mp heq with h | h
      · have := round_to_quantum_exact 53 (-1074) 1 53 (by norm_num) (by norm_num)
        rw [h]
        norm_num at this ⊢
        exact this
      · have := round_to_quantum_exact 53 (-1074) (-1) 53 (by norm_num) (by norm_num)
        rw [h]
        norm_num at this ⊢
        exact this
  have hlt : |round_to_quantum 53 (-1074) (n : ℚ)| < (2 : ℚ) ^ ((1023 : Int) + 1) := by
    rw [hex]
    have e3 : (2 : ℚ) ^ ((1023 : Int) + 1) = 2 ^ 1024 := by norm_num
    rw [e3]
    have : (2 : ℚ) ^ 53 < 2 ^ 1024 := by norm_num
    linarith
  have := round_to_format_of_lt hlt
  rw [hex] at this
  exact this

/-! ### Machine integers -/

theorem size_to_int_of_lt {n : Nat} (h : n < 2 ^ 31) : size_to_int n = (n : Int) := by
  unfold size_to_int
  have h1 : (n + 2 ^ 31) % 2 ^ 32 = n + 2 ^ 31 := Nat.mod_eq_of_lt (by omega)
  rw [h1]
  push_cast
  ring

theorem int_to_size_of_nonneg {z : Int} (h0 : 0 ≤ z) (h1 : z < 2 ^ 64) :
    int_to_size z = z.toNat := by
  unfold int_to_size
  rw [Int.emod_eq_of_lt h0 h1]

theorem int_to_size_natCast {n : Nat} (h : n < 2 ^ 64) : int_to_size (n : Int) = n := by
  rw [int_to_size_of_nonneg (Int.ofNat_nonneg n) (by exact_mod_cast h)]
  simp

/-! ### The conversion to `int` -/

theorem tdiv_eq_floor {x : ℚ} (hx : 0 ≤ x) : Int.tdiv x.num x.den = ⌊x⌋ := by
  rw [Int.tdiv_eq_ediv (Rat.num_nonneg.mpr hx) (Int.ofNat_nonneg _), Rat.floor_def]

theorem tdiv_neg (x : ℚ) : Int.tdiv (-x).num (-x).den = -Int.tdiv x.num x.den := by
  rw [Rat.neg_num, Rat.neg_den, Int.neg_tdiv]

theorem tdiv_eq_ceil {x : ℚ} (hx : x ≤ 0) : Int.tdiv x.num x.den = ⌈x⌉ := by
  have h : Int.tdiv (-x).num (-x).den = ⌊-x⌋ := tdiv_eq_floor (by linarith)
  rw [tdiv_neg, Int.floor_neg] at h
  exact neg_injective h

/-- The quotient computed by `(int)x` is the truncation of `x` toward zero. -/
theorem tdiv_eq_truncate (x : ℚ) : Int.tdiv x.num x.den = truncate_toward_zero x := by
  unfold truncate_toward_zero
  split_ifs with h
  · exact tdiv_eq_floor h
  · exact tdiv_eq_ceil (le_of_lt (not_le.mp h))

theorem float_to_int_eq_some_iff (x : ℚ) (z : Int) :
    float_to_int x = some z ↔
      z = truncate_toward_zero x ∧ -2 ^ 31 ≤ z ∧ z ≤ 2 ^ 31 - 1 := by
  unfold float_to_int
  rw [tdiv_eq_truncate]
  constructor
  · intro h
    split_ifs at h with hr
    have e : truncate_toward_zero x = z := Option.some.inj h
    rw [← e]
    exact ⟨rfl, hr⟩
  · rintro ⟨rfl, hr⟩
    rw [if_pos hr]

theorem float_to_int_eq_none_iff (x : ℚ) :
    float_to_int x = none ↔
      ¬ (-2 ^ 31 ≤ truncate_toward_zero x ∧ truncate_toward_zero x ≤ 2 ^ 31 - 1) := by
  unfold float_to_int
  rw [tdiv_eq_truncate]
  split_ifs with hr
  · exact ⟨fun h => absurd h (by simp), fun h => absurd hr h⟩
  · exact ⟨fun _ => hr, fun _ => rfl⟩

/-- The discarded fractional part is smaller than one. -/
theorem abs_truncate_sub_lt_one (x : ℚ) : |(truncate_toward_zero x : ℚ) - x| < 1 := by
  unfold truncate_toward_zero
  split_ifs with h
  · rw [abs_lt]
    constructor
    · linarith [Int.lt_floor_add_one x]
    · linarith [Int.floor_le x]
  · rw [abs_lt]
    constructor
    · linarith [Int.le_ceil x]
    · linarith [Int.ceil_lt_add_one x]

theorem abs_truncate_le (x : ℚ) : |(truncate_toward_zero x : ℚ)| ≤ |x| := by
  unfold truncate_toward_zero
  split_ifs with h
  · rw [abs_of_nonneg h, abs_of_nonneg (by exact_mod_cast Int.floor_nonneg.mpr h)]
    exact Int.floor_le x
  · have h' : x ≤ 0 := le_of_lt (not_le.mp h)
    rw [abs_of_nonpos h', abs_of_nonpos (by exact_mod_cast Int.ceil_le.mpr (by simpa using h'))]
    linarith [Int.le_ceil x]

theorem truncate_eq_zero {x : ℚ} (h1 : -1 < x) (h2 : x < 1) : truncate_toward_zero x = 0 := by
  unfold truncate_toward_zero
  split_ifs with h
  · rw [Int.floor_eq_iff]
    constructor <;> norm_num <;> linarith
  · rw [Int.ceil_eq_iff]
    constructor <;> norm_num <;> linarith

theorem truncate_intCast (z : Int) : truncate_toward_zero (z : ℚ) = z := by
  unfold truncate_toward_zero
  split_ifs <;> simp

/-- The result of rounding is a value of the format: rounding it again changes nothing. -/
theorem round_to_quantum_idempotent (prec : Nat) (emin : Int) (x : ℚ) (hp : 1 ≤ prec) :
    round_to_quantum prec emin (round_to_quantum prec emin x) =
      round_to_quantum prec emin x := by
  by_cases hx : x = 0
  · have h0 : round_to_quantum prec emin 0 = 0 := by unfold round_to_quantum; simp
    rw [hx, h0, h0]
  · have hdef : round_to_quantum prec emin x =
        (round_half_even (x / (2 : ℚ) ^ (max (binade x - ((prec : Int) - 1)) emin)) : ℚ) *
          (2 : ℚ) ^ (max (binade x - ((prec : Int) - 1)) emin) := by
      unfold round_to_quantum
      rw [if_neg hx]
    obtain ⟨_, hb2⟩ := binade_spec hx
    have two_ne : (2 : ℚ) ≠ 0 := by norm_num
    have hpe : (0 : ℚ) < (2 : ℚ) ^ (max (binade x - ((prec : Int) - 1)) emin) :=
      two_zpow_pos _
    have hee : binade x + 1 - (max (binade x - ((prec : Int) - 1)) emin) ≤ (prec : Int) := by
      have : binade x - ((prec : Int) - 1) ≤ max (binade x - ((prec : Int) - 1)) emin :=
        le_max_left _ _
      omega
    have hemin : emin ≤ max (binade x - ((prec : Int) - 1)) emin := le_max_right _ _
    -- the scaled value is below `2^prec`, so its rounding is at most `2^prec`
    have hz : |x / (2 : ℚ) ^ (max (binade x - ((prec : Int) - 1)) emin)| <
        (2 : ℚ) ^ prec := by
      rw [abs_div, abs_of_pos hpe, div_lt_iff₀ hpe]
      calc |x| < (2 : ℚ) ^ (binade x + 1) := hb2
        _ = (2 : ℚ) ^ (binade x + 1 - (max (binade x - ((prec : Int) - 1)) emin)) *
              (2 : ℚ) ^ (max (binade x - ((prec : Int) - 1)) emin) := by
            rw [← zpow_add₀ two_ne]; congr 1; ring
        _ ≤ (2 : ℚ) ^ ((prec : Nat) : Int) *
              (2 : ℚ) ^ (max (binade x - ((prec : Int) - 1)) emin) :=
            mul_le_mul_of_nonneg_right
              (zpow_le_zpow_right₀ (by norm_num) hee) (le_of_lt hpe)
        _ = (2 : ℚ) ^ prec * (2 : ℚ) ^ (max (binade x - ((prec : Int) - 1)) emin) := by
            rw [zpow_natCast]
    have hrerr := round_half_even_err
      (x / (2 : ℚ) ^ (max (binade x - ((prec : Int) - 1)) emin))
    have hrq : |(round_half_even
        (x / (2 : ℚ) ^ (max (binade x - ((prec : Int) - 1)) emin)) : ℚ)| <
          (2 : ℚ) ^ prec + 1 := by
      have := abs_add ((round_half_even
        (x / (2 : ℚ) ^ (max (binade x - ((prec : Int) - 1)) emin)) : ℚ) -
          x / (2 : ℚ) ^ (max (binade x - ((prec : Int) - 1)) emin))
        (x / (2 : ℚ) ^ (max (binade x - ((prec : Int) - 1)) emin))
      rw [sub_add_cancel] at this
      linarith
    have hrle : |round_half_even
        (x / (2 : ℚ) ^ (max (binade x - ((prec : Int) - 1)) emin))| ≤ 2 ^ prec := by
      have h1 : ((|round_half_even
          (x / (2 : ℚ) ^ (max (binade x - ((prec : Int) - 1)) emin))| : Int) : ℚ) <
            (((2 : Int) ^ prec + 1 : Int) : ℚ) := by
        rw [Int.cast_abs]; push_cast; exact hrq
      have h2 : |round_half_even
          (x / (2 : ℚ) ^ (max (binade x - ((prec : Int) - 1)) emin))| < 2 ^ prec + 1 := by
        exact_mod_cast h1
      omega
    have hone : |(1 : Int)| < 2 ^ prec := by
      rw [abs_one]
      exact one_lt_pow₀ (by norm_num) (by omega)
    have hmone : |(-1 : Int)| < 2 ^ prec := by
      rw [abs_neg]; exact hone
    rw [hdef]
    rcases lt_or_eq_of_le hrle with hlt | heq
    · exact round_to_quantum_exact prec emin _ _ hlt hemin
    · rcases abs_eq (by positivity : (0 : Int) ≤ 2 ^ prec) |>.mp heq with h | h
      · have hcast : ((round_half_even
            (x / (2 : ℚ) ^ (max (binade x - ((prec : Int) - 1)) emin)) : Int) : ℚ) *
              (2 : ℚ) ^ (max (binade x - ((prec : Int) - 1)) emin) =
            ((1 : Int) : ℚ) *
              (2 : ℚ) ^ (max (binade x - ((prec : Int) - 1)) emin + (prec : Int)) := by
          rw [h, zpow_add₀ two_ne, zpow_natCast]; push_cast; ring
        rw [hcast]
        exact round_to_quantum_exact prec emin 1 _ hone (by omega)
      · have hcast : ((round_half_even
            (x / (2 : ℚ) ^ (max (binade x - ((prec : Int) - 1)) emin)) : Int) : ℚ) *
              (2 : ℚ) ^ (max (binade x - ((prec : Int) - 1)) emin) =
            ((-1 : Int) : ℚ) *
              (2 : ℚ) ^ (max (binade x - ((prec : Int) - 1)) emin + (prec : Int)) := by
          rw [h, zpow_add₀ two_ne, zpow_natCast]; push_cast; ring
        rw [hcast]
        exact round_to_quantum_exact prec emin (-1) _ hmone (by omega)

/-- A `float` value converts to itself: the conversion of the `float` objects
`cos_value`, `sin_value` at the head of lines 109-110 changes no `float`. -/
theorem to_float_idempotent {x y : ℚ} (h : to_float x = some y) : to_float y = some y := by
  obtain ⟨hy, hlt⟩ := round_to_format_eq_some h
  have hid := round_to_quantum_idempotent 24 (-149) x (by norm_num)
  rw [← hy] at hid
  unfold to_float
  apply (round_to_format_of_lt (by rw [hid]; exact hlt)).trans
  rw [hid]

/-! ### One work item -/

theorem offset_lt {n m a b : Nat} (ha : a < n) (hb : b < m) : m * a + b < n * m := by
  have h : m * (a + 1) ≤ m * n := Nat.mul_le_mul_left m ha
  rw [Nat.mul_comm n m]
  rw [Nat.mul_add, Nat.mul_one] at h
  omega

theorem extent_mul_lt {rows cols : Nat} (hrows : rows ≤ 2 ^ 31) (hcols : cols ≤ 2 ^ 31) :
    rows * cols < 2 ^ 64 := by
  have h : rows * cols ≤ 2 ^ 31 * 2 ^ 31 := Nat.mul_le_mul hrows hcols
  have e : (2 : Nat) ^ 31 * 2 ^ 31 < 2 ^ 64 := by norm_num
  omega

theorem rotated_coords_eq_some_iff (c s : ℚ) (row col x2 y2 : Int) :
    rotated_coords c s row col = some (x2, y2) ↔
      ∃ xr yr : ℚ, x_rotated c s row col = some xr ∧ y_rotated c s row col = some yr ∧
        float_to_int xr = some x2 ∧ float_to_int yr = some y2 := by
  unfold rotated_coords
  simp only [Option.bind_eq_bind, Option.pure_def, Option.bind_eq_some, Option.some.injEq,
    Prod.mk.injEq]
  constructor
  · rintro ⟨xr, hxr, yr, hyr, a, ha, b, hb, rfl, rfl⟩
    exact ⟨xr, yr, hxr, hyr, ha, hb⟩
  · rintro ⟨xr, yr, hxr, hyr, ha, hb⟩
    exact ⟨xr, hxr, yr, hyr, x2, ha, y2, hb, rfl, rfl⟩

/-- Rotated coordinates are `int` values. -/
theorem rotated_coords_range {c s : ℚ} {row col x2 y2 : Int}
    (h : rotated_coords c s row col = some (x2, y2)) :
    (-2 ^ 31 ≤ x2 ∧ x2 ≤ 2 ^ 31 - 1) ∧ (-2 ^ 31 ≤ y2 ∧ y2 ≤ 2 ^ 31 - 1) := by
  obtain ⟨xr, yr, _, _, hx, hy⟩ := (rotated_coords_eq_some_iff c s row col x2 y2).mp h
  exact ⟨((float_to_int_eq_some_iff xr x2).mp hx).2, ((float_to_int_eq_some_iff yr y2).mp hy).2⟩

theorem dest_offset_eq_some_iff (c s : ℚ) (rows cols : Nat) (item : Nat × Nat) (k : Nat) :
    dest_offset c s rows cols item = some k ↔
      ∃ x2 y2 : Int,
        rotated_coords c s (size_to_int item.1) (size_to_int item.2) = some (x2, y2) ∧
        in_bounds rows cols x2 y2 ∧ cols * y2.toNat + x2.toNat = k := by
  unfold dest_offset
  cases h : rotated_coords c s (size_to_int item.1) (size_to_int item.2) with
  | none => simp
  | some p =>
    obtain ⟨a, b⟩ := p
    by_cases hb : in_bounds rows cols a b
    · simp only [hb, if_true, Option.some.injEq, Prod.mk.injEq]
      constructor
      · intro hk
        exact ⟨a, b, ⟨rfl, rfl⟩, hb, hk⟩
      · rintro ⟨x2, y2, ⟨rfl, rfl⟩, _, hk⟩
        exact hk
    · simp only [hb, if_false, Option.some.injEq, Prod.mk.injEq]
      constructor
      · intro hk
        exact absurd hk (by simp)
      · rintro ⟨x2, y2, ⟨rfl, rfl⟩, hb', _⟩
        exact absurd hb' hb

theorem in_bounds_offset_lt {rows cols : Nat} {x2 y2 : Int}
    (h : in_bounds rows cols x2 y2) : cols * y2.toNat + x2.toNat < rows * cols := by
  obtain ⟨hx0, hx, hy0, hy⟩ := h
  exact offset_lt ((Int.toNat_lt hy0).mpr hy) ((Int.toNat_lt hx0).mpr hx)

theorem dest_offset_lt {c s : ℚ} {rows cols : Nat} {item : Nat × Nat} {k : Nat}
    (h : dest_offset c s rows cols item = some k) : k < rows * cols := by
  obtain ⟨x2, y2, _, hb, hk⟩ := (dest_offset_eq_some_iff c s rows cols item k).mp h
  rw [← hk]
  exact in_bounds_offset_lt hb

/-- The bounds test of the kernel, with its conversions of `x2` and `y2` to `size_t`,
agrees with the test on the integers for `int` values. -/
theorem kernel_check_iff (rows cols : Nat) (x2 y2 : Int) (hx : x2 ≤ 2 ^ 31 - 1)
    (hy : y2 ≤ 2 ^ 31 - 1) :
    (decide (x2 ≥ 0) && decide (int_to_size x2 < cols) &&
      decide (y2 ≥ 0) && decide (int_to_size y2 < rows)) = true ↔
        in_bounds rows cols x2 y2 := by
  simp only [in_bounds, Bool.and_eq_true, decide_eq_true_eq, ge_iff_le, and_assoc]
  constructor
  · rintro ⟨h1, h2, h3, h4⟩
    rw [int_to_size_of_nonneg h1 (by omega)] at h2
    rw [int_to_size_of_nonneg h3 (by omega)] at h4
    exact ⟨h1, (Int.toNat_lt h1).mp h2, h3, (Int.toNat_lt h3).mp h4⟩
  · rintro ⟨h1, h2, h3, h4⟩
    refine ⟨h1, ?_, h3, ?_⟩
    · rw [int_to_size_of_nonneg h1 (by omega)]
      exact (Int.toNat_lt h1).mpr h2
    · rw [int_to_size_of_nonneg h3 (by omega)]
      exact (Int.toNat_lt h3).mpr h4

theorem unit_effect_length (src : List Pixel) (c s : ℚ) (rows cols : Nat)
    (dst : List Pixel) (item : Nat × Nat) :
    (unit_effect src c s rows cols dst item).length = dst.length := by
  unfold unit_effect
  cases dest_offset c s rows cols item <;> simp

theorem unit_effect_of_some {src : List Pixel} {c s : ℚ} {rows cols : Nat}
    {dst : List Pixel} {item : Nat × Nat} {k : Nat}
    (h : dest_offset c s rows cols item = some k) :
    unit_effect src c s rows cols dst item =
      dst.set k (src.getD (cols * item.1 + item.2) 0) := by
  unfold unit_effect
  rw [h]

theorem unit_effect_of_none {src : List Pixel} {c s : ℚ} {rows cols : Nat}
    {dst : List Pixel} {item : Nat × Nat}
    (h : dest_offset c s rows cols item = none) :
    unit_effect src c s rows cols dst item = dst := by
  unfold unit_effect
  rw [h]

/-- The kernel on a unit whose rotated coordinates are the `int` values `(x2, y2)`, with
the index arithmetic carried out on the integers: the ids fit `int` and the buffers have
`rows*cols` elements, so no conversion or `size_t` operation wraps. -/
theorem kernel_of_coords {src dst : List Pixel} {c s : ℚ} {rows cols : Nat}
    {item : Nat × Nat} {x2 y2 : Int} (hsrc : src.length = rows * cols)
    (hdst : dst.length = rows * cols) (hrows : rows ≤ 2 ^ 31) (hcols : cols ≤ 2 ^ 31)
    (hrow : item.1 < rows) (hcol : item.2 < cols)
    (hxy : rotated_coords c s item.1 item.2 = some (x2, y2)) :
    ImageRot_v1_kernel src dst c s rows cols item =
      if in_bounds rows cols x2 y2 then
        some (dst.set (cols * y2.toNat + x2.toNat) (src.getD (cols * item.1 + item.2) 0))
      else some dst := by
  have hr31 : item.1 < 2 ^ 31 := lt_of_lt_of_le hrow hrows
  have hc31 : item.2 < 2 ^ 31 := lt_of_lt_of_le hcol hcols
  have hsize := extent_mul_lt hrows hcols
  have hi : cols * item.1 + item.2 < rows * cols := offset_lt hrow hcol
  obtain ⟨⟨_, hx⟩, ⟨_, hy⟩⟩ := rotated_coords_range hxy
  unfold ImageRot_v1_kernel
  simp only [size_to_int_of_lt hr31, size_to_int_of_lt hc31, hxy]
  by_cases hb : in_bounds rows cols x2 y2
  · have hk := in_bounds_offset_lt hb
    obtain ⟨hx0, _, hy0, _⟩ := hb
    have e1 : (cols * int_to_size (item.1 : Int) + int_to_size (item.2 : Int)) % 2 ^ 64 =
        cols * item.1 + item.2 := by
      rw [int_to_size_natCast (by omega), int_to_size_natCast (by omega)]
      exact Nat.mod_eq_of_lt (by omega)
    have e2 : (cols * int_to_size y2 + int_to_size x2) % 2 ^ 64 =
        cols * y2.toNat + x2.toNat := by
      rw [int_to_size_of_nonneg hy0 (by omega), int_to_size_of_nonneg hx0 (by omega)]
      exact Nat.mod_eq_of_lt (by omega)
    have hi' : cols * item.1 + item.2 < src.length := by rw [hsrc]; exact hi
    have hk' : cols * y2.toNat + x2.toNat < dst.length := by rw [hdst]; exact hk
    have hb' : in_bounds rows cols x2 y2 := ⟨hx0, ‹_›, hy0, ‹_›⟩
    rw [if_pos ((kernel_check_iff rows cols x2 y2 hx hy).mpr hb'), if_pos hb', e1, e2,
      List.getElem?_eq_getElem hi']
    simp only [if_pos hk']
    rw [List.getD_eq_getElem?_getD, List.getElem?_eq_getElem hi', Option.getD_some]
  · have hc : ¬ ((decide (x2 ≥ 0) && decide (int_to_size x2 < cols) &&
        decide (y2 ≥ 0) && decide (int_to_size y2 < rows)) = true) :=
      fun h => hb ((kernel_check_iff rows cols x2 y2 hx hy).mp h)
    rw [if_neg hc, if_neg hb]

/-- On buffers of `rows*cols` elements, with ids that fit `int`, a unit whose conversions
to `int` are defined makes no access outside a buffer, and its effect is `unit_effect`. -/
theorem kernel_eq_unit_effect {src dst : List Pixel} {c s : ℚ} {rows cols : Nat}
    {item : Nat × Nat} (hsrc : src.length = rows * cols) (hdst : dst.length = rows * cols)
    (hrows : rows ≤ 2 ^ 31) (hcols : cols ≤ 2 ^ 31)
    (hrow : item.1 < rows) (hcol : item.2 < cols)
    (hdef : rotated_coords c s item.1 item.2 ≠ none) :
    ImageRot_v1_kernel src dst c s rows cols item =
      some (unit_effect src c s rows cols dst item) := by
  have hr31 : item.1 < 2 ^ 31 := lt_of_lt_of_le hrow hrows
  have hc31 : item.2 < 2 ^ 31 := lt_of_lt_of_le hcol hcols
  cases hxy : rotated_coords c s item.1 item.2 with
  | none => exact absurd hxy hdef
  | some p =>
    obtain ⟨x2, y2⟩ := p
    rw [kernel_of_coords hsrc hdst hrows hcols hrow hcol hxy]
    have hxy' : rotated_coords c s (size_to_int item.1) (size_to_int item.2) =
        some (x2, y2) := by
      rw [size_to_int_of_lt hr31, size_to_int_of_lt hc31]; exact hxy
    by_cases hb : in_bounds rows cols x2 y2
    · have hd : dest_offset c s rows cols item = some (cols * y2.toNat + x2.toNat) :=
        (dest_offset_eq_some_iff c s rows cols item _).mpr ⟨x2, y2, hxy', hb, rfl⟩
      rw [if_pos hb, unit_effect_of_some hd]
    · have hd : dest_offset c s rows cols item = none := by
        cases hk : dest_offset c s rows cols item with
        | none => rfl
        | some k =>
          obtain ⟨a, b, hab, hb', _⟩ := (dest_offset_eq_some_iff c s rows cols item k).mp hk
          rw [hxy'] at hab
          obtain ⟨rfl, rfl⟩ := Prod.mk.inj (Option.some.inj hab)
          exact absurd hb' hb
      rw [if_neg hb, unit_effect_of_none hd]

/-! ### A whole run -/

theorem mem_num_items (rows cols : Nat) (item : Nat × Nat) :
    item ∈ num_items rows cols ↔ item.1 < rows ∧ item.2 < cols := by
  obtain ⟨r, c⟩ := item
  simp only [num_items, List.mem_flatMap, List.mem_range, List.mem_map, Prod.mk.injEq]
  constructor
  · rintro ⟨a, ha, b, hb, rfl, rfl⟩
    exact ⟨ha, hb⟩
  · rintro ⟨hr, hc⟩
    exact ⟨r, hr, c, hc, rfl, rfl⟩

theorem perm_num_items_mem {rows cols : Nat} {q : List (Nat × Nat)}
    (hq : q.Perm (num_items rows cols)) :
    ∀ item ∈ q, item.1 < rows ∧ item.2 < cols :=
  fun item h => (mem_num_items rows cols item).mp (hq.mem_iff.mp h)

theorem foldl_unit_effect_length (src : List Pixel) (c s : ℚ) (rows cols : Nat)
    (q : List (Nat × Nat)) (dst : List Pixel) :
    (q.foldl (unit_effect src c s rows cols) dst).length = dst.length := by
  induction q generalizing dst with
  | nil => rfl
  | cons a q ih => rw [List.foldl_cons, ih, unit_effect_length]

/-- A run over work items of the index space whose conversions to `int` are defined never
leaves the buffers and is the left fold of `unit_effect` over the execution order. -/
theorem run_eq_foldl {src : List Pixel} {c s : ℚ} {rows cols : Nat}
    (hsrc : src.length = rows * cols) (hrows : rows ≤ 2 ^ 31) (hcols : cols ≤ 2 ^ 31)
    (hdef : ∀ row col : Nat, row < rows → col < cols → rotated_coords c s row col ≠ none)
    (q : List (Nat × Nat)) (dst : List Pixel)
    (hdst : dst.length = rows * cols) (hq : ∀ item ∈ q, item.1 < rows ∧ item.2 < cols) :
    ImageRot_v1 q src dst c s rows cols =
      some (q.foldl (unit_effect src c s rows cols) dst) := by
  induction q generalizing dst with
  | nil => rfl
  | cons a q ih =>
    have ha := hq a (List.mem_cons_self a q)
    have hstep := @kernel_eq_unit_effect src dst c s rows cols a hsrc hdst hrows hcols
      ha.1 ha.2 (hdef a.1 a.2 ha.1 ha.2)
    have hlen : (unit_effect src c s rows cols dst a).length = rows * cols := by
      rw [unit_effect_length, hdst]
    have ih2 := ih (unit_effect src c s rows cols dst a) hlen
      (fun item hitem => hq item (List.mem_cons_of_mem a hitem))
    unfold ImageRot_v1 at ih2 ⊢
    rw [List.foldlM_cons, hstep, List.foldl_cons]
    exact ih2

theorem last_writer_append_singleton (c s : ℚ) (rows cols : Nat) (q : List (Nat × Nat))
    (a : Nat × Nat) (k : Nat) :
    last_writer c s rows cols (q ++ [a]) k =
      if dest_offset c s rows cols a = some k then some a
      else last_writer c s rows cols q k := by
  unfold last_writer
  rw [List.reverse_append, List.reverse_singleton, List.singleton_append, List.find?_cons]
  by_cases h : dest_offset c s rows cols a = some k
  · simp [h]
  · simp [h]

/-- The value of a cell after the units of `q` have run: the source value of the last
unit that stored there, or the initial value when no unit did. -/
theorem foldl_unit_effect_getElem_opt (src : List Pixel) (c s : ℚ) (rows cols : Nat)
    (q : List (Nat × Nat)) (dst : List Pixel) (k : Nat) (hk : k < dst.length) :
    (q.foldl (unit_effect src c s rows cols) dst)[k]? =
      match last_writer c s rows cols q k with
      | some item => some (src.getD (cols * item.1 + item.2) 0)
      | none => dst[k]? := by
  induction q using List.reverseRecOn with
  | nil => simp [last_writer]
  | append_singleton q a ih =>
    rw [List.foldl_append, List.foldl_cons, List.foldl_nil, last_writer_append_singleton]
    have hlen : k < (q.foldl (unit_effect src c s rows cols) dst).length := by
      rw [foldl_unit_effect_length]; exact hk
    by_cases h : dest_offset c s rows cols a = some k
    · rw [if_pos h, unit_effect_of_some h, List.getElem?_set_self hlen]
    · rw [if_neg h, ← ih]
      cases hd : dest_offset c s rows cols a with
      | none => rw [unit_effect_of_none hd]
      | some j =>
        have hjk : j ≠ k := fun e => h (by rw [hd, e])
        rw [unit_effect_of_some hd, List.getElem?_set_ne hjk]

theorem last_writer_eq_none_iff (c s : ℚ) (rows cols : Nat) (q : List (Nat × Nat))
    (k : Nat) :
    last_writer c s rows cols q k = none ↔
      ∀ item ∈ q, dest_offset c s rows cols item ≠ some k := by
  unfold last_writer
  rw [List.find?_eq_none]
  simp

theorem last_writer_some {c s : ℚ} {rows cols : Nat} {q : List (Nat × Nat)} {k : Nat}
    {item : Nat × Nat} (h : last_writer c s rows cols q k = some item) :
    item ∈ q ∧ dest_offset c s rows cols item = some k := by
  unfold last_writer at h
  refine ⟨?_, ?_⟩
  · have := List.mem_of_find?_eq_some h
    simpa using this
  · have := List.find?_some h
    simpa using this

theorem last_writer_perm_eq {c s : ℚ} {rows cols : Nat} {q1 q2 : List (Nat × Nat)}
    (h : q1.Perm q2) (k : Nat)
    (huniq : ∀ a ∈ q1, ∀ b ∈ q1, dest_offset c s rows cols a = some k →
      dest_offset c s rows cols b = some k → a = b) :
    last_writer c s rows cols q1 k = last_writer c s rows cols q2 k := by
  cases h1 : last_writer c s rows cols q1 k with
  | none =>
    symm
    rw [last_writer_eq_none_iff] at h1 ⊢
    exact fun item hitem => h1 item (h.mem_iff.mpr hitem)
  | some a =>
    obtain ⟨ha, hda⟩ := last_writer_some h1
    cases h2 : last_writer c s rows cols q2 k with
    | none =>
      rw [last_writer_eq_none_iff] at h2
      exact absurd hda (h2 a (h.mem_iff.mp ha))
    | some b =>
      obtain ⟨hb, hdb⟩ := last_writer_some h2
      rw [huniq a ha b (h.mem_iff.mpr hb) hda hdb]

/-- When exactly one unit of the execution order has destination offset `k`, that unit is
the last writer of `k`. -/
theorem last_writer_eq_of_unique {c s : ℚ} {rows cols : Nat} {q : List (Nat × Nat)}
    {k : Nat} {item : Nat × Nat} (hmem : item ∈ q)
    (hd : dest_offset c s rows cols item = some k)
    (hu : ∀ b ∈ q, dest_offset c s rows cols b = some k → b = item) :
    last_writer c s rows cols q k = some item := by
  cases h : last_writer c s rows cols q k with
  | none =>
    rw [last_writer_eq_none_iff] at h
    exact absurd hd (h item hmem)
  | some b =>
    obtain ⟨hb, hdb⟩ := last_writer_some h
    rw [hu b hb hdb]

/-- The final buffer of a run, cell by cell. -/
theorem run_getElem_opt {src dst : List Pixel} {c s : ℚ} {rows cols : Nat}
    {q : List (Nat × Nat)} (hsrc : src.length = rows * cols)
    (hdst : dst.length = rows * cols) (hrows : rows ≤ 2 ^ 31) (hcols : cols ≤ 2 ^ 31)
    (hdef : ∀ row col : Nat, row < rows → col < cols → rotated_coords c s row col ≠ none)
    (hq : ∀ item ∈ q, item.1 < rows ∧ item.2 < cols) :
    ∃ out : List Pixel,
      ImageRot_v1 q src dst c s rows cols = some out ∧ out.length = rows * cols ∧
      (∀ (k : Nat) (item : Nat × Nat), last_writer c s rows cols q k = some item →
        out[k]? = src[cols * item.1 + item.2]?) ∧
      (∀ k : Nat, last_writer c s rows cols q k = none → out[k]? = dst[k]?) := by
  refine ⟨_, run_eq_foldl hsrc hrows hcols hdef q dst hdst hq, ?_, ?_, ?_⟩
  · rw [foldl_unit_effect_length, hdst]
  · intro k item hl
    obtain ⟨hmem, hd⟩ := last_writer_some hl
    have hk : k < dst.length := hdst ▸ dest_offset_lt hd
    have hi : cols * item.1 + item.2 < src.length :=
      hsrc ▸ offset_lt (hq item hmem).1 (hq item hmem).2
    rw [foldl_unit_effect_getElem_opt src c s rows cols q dst k hk, hl]
    simp only []
    rw [List.getD_eq_getElem?_getD, List.getElem?_eq_getElem hi, Option.getD_some]
  · intro k hl
    by_cases hk : k < dst.length
    · rw [foldl_unit_effect_getElem_opt src c s rows cols q dst k hk, hl]
    · have h1 : dst.length ≤ k := Nat.le_of_not_lt hk
      rw [List.getElem?_eq_none h1, List.getElem?_eq_none]
      rw [foldl_unit_effect_length]; exact h1

/-- A unit that has no defined effect on any destination leaves every run that executes
it without a defined result. -/
theorem run_none_of_unit_none {src : List Pixel} {c s : ℚ} {rows cols : Nat}
    {item : Nat × Nat}
    (hnone : ∀ d : List Pixel, ImageRot_v1_kernel src d c s rows cols item = none)
    (q : List (Nat × Nat)) (dst : List Pixel) (hmem : item ∈ q) :
    ImageRot_v1 q src dst c s rows cols = none := by
  induction q generalizing dst with
  | nil => exact absurd hmem (List.not_mem_nil _)
  | cons a q ih =>
    unfold ImageRot_v1
    rw [List.foldlM_cons]
    cases hk : ImageRot_v1_kernel src dst c s rows cols a with
    | none => rfl
    | some d =>
      rcases List.mem_cons.mp hmem with heq | hq
      · rw [← heq, hnone dst] at hk
        exact Option.noConfusion hk
      · exact ih d hq

/-! ### Exact cases of the rotation -/

theorem float_to_int_intCast {z : Int} (h1 : -2 ^ 31 ≤ z) (h2 : z ≤ 2 ^ 31 - 1) :
    float_to_int (z : ℚ) = some z :=
  (float_to_int_eq_some_iff (z : ℚ) z).mpr ⟨(truncate_intCast z).symm, h1, h2⟩

theorem abs_mul_le_of_abs_le_one {a b : Int} (ha : |a| ≤ 1) : |a * b| ≤ |b| := by
  rw [abs_mul]
  calc |a| * |b| ≤ 1 * |b| := Int.mul_le_mul_of_nonneg_right ha (abs_nonneg b)
    _ = |b| := one_mul _

/-- Line 109 is exact for a cosine and sine in `{-1, 0, 1}` and coordinates and a result
of magnitude at most `2^24`. -/
theorem x_rotated_intCast (c s x y : Int) (hc : |c| ≤ 1) (hs : |s| ≤ 1)
    (hx : |x| ≤ 2 ^ 24) (hy : |y| ≤ 2 ^ 24) (h1 : |c * x + s * y| ≤ 2 ^ 24) :
    x_rotated (c : ℚ) (s : ℚ) x y = some ((c * x + s * y : Int) : ℚ) := by
  have e0 : to_float (c : ℚ) = some (c : ℚ) := to_float_intCast (by omega)
  have e1 : to_float (s : ℚ) = some (s : ℚ) := to_float_intCast (by omega)
  have e2 : to_float (x : ℚ) = some (x : ℚ) := to_float_intCast hx
  have e3 : to_float (y : ℚ) = some (y : ℚ) := to_float_intCast hy
  have e4 : to_float ((c : ℚ) * (x : ℚ)) = some ((c : ℚ) * (x : ℚ)) := by
    have := to_float_intCast (n := c * x) (le_trans (abs_mul_le_of_abs_le_one hc) hx)
    simpa using this
  have e5 : to_float ((s : ℚ) * (y : ℚ)) = some ((s : ℚ) * (y : ℚ)) := by
    have := to_float_intCast (n := s * y) (le_trans (abs_mul_le_of_abs_le_one hs) hy)
    simpa using this
  have e6 : to_float ((c : ℚ) * (x : ℚ) + (s : ℚ) * (y : ℚ)) =
      some ((c : ℚ) * (x : ℚ) + (s : ℚ) * (y : ℚ)) := by
    have := to_float_intCast (n := c * x + s * y) h1
    simpa using this
  simp only [x_rotated, Option.bind_eq_bind, Option.some_bind, sub_zero, e0, e1, e2, e3, e4,
    e5, e6]
  push_cast
  rfl

/-- Line 110 is exact for a cosine and sine in `{-1, 0, 1}` and coordinates and a result
of magnitude at most `2^24`. -/
theorem y_rotated_intCast (c s x y : Int) (hc : |c| ≤ 1) (hs : |s| ≤ 1)
    (hx : |x| ≤ 2 ^ 24) (hy : |y| ≤ 2 ^ 24) (h2 : |-s * x + c * y| ≤ 2 ^ 24) :
    y_rotated (c : ℚ) (s : ℚ) x y = some ((-s * x + c * y : Int) : ℚ) := by
  have hns : |-s| ≤ 1 := by rw [abs_neg]; exact hs
  have e0 : to_float (c : ℚ) = some (c : ℚ) := to_float_intCast (by omega)
  have e1 : to_float (s : ℚ) = some (s : ℚ) := to_float_intCast (by omega)
  have e2 : to_float (x : ℚ) = some (x : ℚ) := to_float_intCast hx
  have e3 : to_float (y : ℚ) = some (y : ℚ) := to_float_intCast hy
  have e4 : to_double ((-1 : ℚ) * (s : ℚ)) = some (-(s : ℚ)) := by
    have := to_double_intCast (n := -s) (by omega)
    simpa using this
  have e5 : to_double (-(s : ℚ) * (x : ℚ)) = some (-(s : ℚ) * (x : ℚ)) := by
    have := to_double_intCast (n := -s * x)
      (le_trans (le_trans (abs_mul_le_of_abs_le_one hns) hx) (by norm_num))
    simpa using this
  have e6 : to_float ((c : ℚ) * (y : ℚ)) = some ((c : ℚ) * (y : ℚ)) := by
    have := to_float_intCast (n := c * y) (le_trans (abs_mul_le_of_abs_le_one hc) hy)
    simpa using this
  have e7 : to_double (-(s : ℚ) * (x : ℚ) + (c : ℚ) * (y : ℚ)) =
      some (-(s : ℚ) * (x : ℚ) + (c : ℚ) * (y : ℚ)) := by
    have := to_double_intCast (n := -s * x + c * y) (le_trans h2 (by norm_num))
    simpa using this
  have e8 : to_float (-(s : ℚ) * (x : ℚ) + (c : ℚ) * (y : ℚ)) =
      some (-(s : ℚ) * (x : ℚ) + (c : ℚ) * (y : ℚ)) := by
    have := to_float_intCast (n := -s * x + c * y) h2
    simpa using this
  simp only [y_rotated, Option.bind_eq_bind, Option.some_bind, sub_zero, e0, e1, e2, e3, e4,
    e5, e6, e7, e8]
  push_cast
  rfl

/-- The rotated coordinates for a cosine and sine in `{-1, 0, 1}`: the rotation formula
on the integers, for coordinates and results of magnitude at most `2^24`. -/
theorem rotated_coords_intCast (c s x y : Int) (hc : |c| ≤ 1) (hs : |s| ≤ 1)
    (hx : |x| ≤ 2 ^ 24) (hy : |y| ≤ 2 ^ 24) (h1 : |c * x + s * y| ≤ 2 ^ 24)
    (h2 : |-s * x + c * y| ≤ 2 ^ 24) :
    rotated_coords (c : ℚ) (s : ℚ) x y = some (c * x + s * y, -s * x + c * y) := by
  rw [rotated_coords_eq_some_iff]
  have b1 := abs_le.mp h1
  have b2 := abs_le.mp h2
  exact ⟨_, _, x_rotated_intCast c s x y hc hs hx hy h1,
    y_rotated_intCast c s x y hc hs hx hy h2,
    float_to_int_intCast (by omega) (by omega), float_to_int_intCast (by omega) (by omega)⟩

theorem rotated_coords_angle_zero {row col : Nat} (hrow : row ≤ 2 ^ 24)
    (hcol : col ≤ 2 ^ 24) :
    rotated_coords 1 0 row col = some ((row : Int), (col : Int)) := by
  have h := rotated_coords_intCast 1 0 row col (by norm_num) (by norm_num)
    (by rw [abs_of_nonneg (Int.ofNat_nonneg row)]; exact_mod_cast hrow)
    (by rw [abs_of_nonneg (Int.ofNat_nonneg col)]; exact_mod_cast hcol)
    (by simp only [one_mul, zero_mul, add_zero]
        rw [abs_of_nonneg (Int.ofNat_nonneg row)]; exact_mod_cast hrow)
    (by simp only [neg_zero, one_mul, zero_mul, zero_add]
        rw [abs_of_nonneg (Int.ofNat_nonneg col)]; exact_mod_cast hcol)
  simpa using h

theorem rotated_coords_quarter_turn {row col : Nat} (hrow : row ≤ 2 ^ 24)
    (hcol : col ≤ 2 ^ 24) :
    rotated_coords 0 1 row col = some ((col : Int), -(row : Int)) := by
  have h := rotated_coords_intCast 0 1 row col (by norm_num) (by norm_num)
    (by rw [abs_of_nonneg (Int.ofNat_nonneg row)]; exact_mod_cast hrow)
    (by rw [abs_of_nonneg (Int.ofNat_nonneg col)]; exact_mod_cast hcol)
    (by simp only [one_mul, zero_mul, zero_add]
        rw [abs_of_nonneg (Int.ofNat_nonneg col)]; exact_mod_cast hcol)
    (by simp only [one_mul, zero_mul, add_zero, neg_mul, abs_neg]
        rw [abs_of_nonneg (Int.ofNat_nonneg row)]; exact_mod_cast hrow)
  simpa using h

/-! ### Rounding error of the rotation -/

theorem to_float_near {x B : ℚ} (hx : |x| ≤ B) (hB : B ≤ 2 ^ 64) :
    ∃ y : ℚ, to_float x = some y ∧ |y - x| ≤ B / 2 ^ 24 + 1 / 2 ^ 150 := by
  obtain ⟨y, hy, he⟩ := to_float_defined (le_trans hx hB)
  refine ⟨y, hy, le_trans he ?_⟩
  have : |x| / 2 ^ 24 ≤ B / 2 ^ 24 := by
    apply div_le_div_of_nonneg_right hx; positivity
  linarith

theorem to_double_near {x B : ℚ} (hx : |x| ≤ B) (hB : B ≤ 2 ^ 64) :
    ∃ y : ℚ, to_double x = some y ∧ |y - x| ≤ B / 2 ^ 53 + 1 / 2 ^ 1075 := by
  obtain ⟨y, hy, he⟩ := to_double_defined (le_trans hx hB)
  refine ⟨y, hy, le_trans he ?_⟩
  have : |x| / 2 ^ 53 ≤ B / 2 ^ 53 := by
    apply div_le_div_of_nonneg_right hx; positivity
  linarith

theorem abs_le_of_abs_sub_le {a b e B : ℚ} (h : |a - b| ≤ e) (hb : |b| ≤ B) :
    |a| ≤ B + e := by
  have := abs_add (a - b) b
  rw [sub_add_cancel] at this
  linarith

theorem abs_mul_le_mul {a b A B : ℚ} (ha : |a| ≤ A) (hb : |b| ≤ B) : |a * b| ≤ A * B := by
  rw [abs_mul]
  exact mul_le_mul ha hb (abs_nonneg b) (le_trans (abs_nonneg a) ha)

/-- A cosine or sine of magnitude at most one converts to a `float` close to it. -/
theorem to_float_unit {c : ℚ} (hc : |c| ≤ 1) :
    ∃ c' : ℚ, to_float c = some c' ∧ |c' - c| ≤ 1 / 2 ^ 24 + 1 / 2 ^ 150 ∧
      |c'| ≤ 1 + 1 / 2 ^ 23 := by
  obtain ⟨c', h1, h2⟩ := to_float_near hc (by norm_num)
  have h3 : |c' - c| ≤ 1 / 2 ^ 24 + 1 / 2 ^ 150 := by simpa using h2
  refine ⟨c', h1, h3, ?_⟩
  have h4 := abs_le_of_abs_sub_le h3 hc
  have : (1 : ℚ) + (1 / 2 ^ 24 + 1 / 2 ^ 150) ≤ 1 + 1 / 2 ^ 23 := by norm_num
  linarith

/-- A `float` product of a converted cosine or sine with a coordinate of magnitude at
most `2^18`. -/
theorem to_float_mul_near {c c' X : ℚ} (hc : |c' - c| ≤ 1 / 2 ^ 24 + 1 / 2 ^ 150)
    (hc' : |c'| ≤ 1 + 1 / 2 ^ 23) (hX : |X| ≤ 2 ^ 18) :
    ∃ p : ℚ, to_float (c' * X) = some p ∧ |p - c * X| ≤ 1 / 30 ∧ |p| ≤ 262146 := by
  have h1 : |c' * X| ≤ (1 + 1 / 2 ^ 23) * 2 ^ 18 := abs_mul_le_mul hc' hX
  obtain ⟨p, hp, ep⟩ := to_float_near h1 (by norm_num)
  have h2 : |(c' - c) * X| ≤ (1 / 2 ^ 24 + 1 / 2 ^ 150) * 2 ^ 18 := abs_mul_le_mul hc hX
  have h3 : p - c * X = (p - c' * X) + (c' - c) * X := by ring
  have h4 := abs_add (p - c' * X) ((c' - c) * X)
  have n1 : (1 + 1 / 2 ^ 23) * 2 ^ 18 / 2 ^ 24 + 1 / 2 ^ 150 +
      (1 / 2 ^ 24 + 1 / 2 ^ 150) * (2 : ℚ) ^ 18 ≤ 1 / 30 := by norm_num
  have n2 : (1 + 1 / 2 ^ 23) * 2 ^ 18 +
      ((1 + 1 / 2 ^ 23) * 2 ^ 18 / 2 ^ 24 + 1 / 2 ^ 150) ≤ (262146 : ℚ) := by norm_num
  refine ⟨p, hp, ?_, ?_⟩
  · rw [h3]; linarith
  · have := abs_le_of_abs_sub_le ep h1
    linarith

/-- Line 109 within rounding error: for a cosine and sine of magnitude at most one and
coordinates of magnitude at most `2^18`, `x_rotated` is finite and within `1/10` of
`cos*x1 + sin*y1`. -/
theorem x_rotated_near {c s : ℚ} {x y : Int} (hc : |c| ≤ 1) (hs : |s| ≤ 1)
    (hx : |x| ≤ 2 ^ 18) (hy : |y| ≤ 2 ^ 18) :
    ∃ xr : ℚ, x_rotated c s x y = some xr ∧ |xr - (c * x + s * y)| ≤ 1 / 10 := by
  obtain ⟨c', ec, hc1, hc2⟩ := to_float_unit hc
  obtain ⟨s', es, hs1, hs2⟩ := to_float_unit hs
  have hxq : |(x : ℚ)| ≤ 2 ^ 18 := by
    have : ((|x| : Int) : ℚ) ≤ (((2 : Int) ^ 18 : Int) : ℚ) := by exact_mod_cast hx
    simpa using this
  have hyq : |(y : ℚ)| ≤ 2 ^ 18 := by
    have : ((|y| : Int) : ℚ) ≤ (((2 : Int) ^ 18 : Int) : ℚ) := by exact_mod_cast hy
    simpa using this
  have ex : to_float (x : ℚ) = some (x : ℚ) := to_float_intCast (by omega)
  have ey : to_float (y : ℚ) = some (y : ℚ) := to_float_intCast (by omega)
  obtain ⟨p1, ep1, hp1, bp1⟩ := to_float_mul_near hc1 hc2 hxq
  obtain ⟨p2, ep2, hp2, bp2⟩ := to_float_mul_near hs1 hs2 hyq
  have hsum : |p1 + p2| ≤ 524292 := by
    have := abs_add p1 p2
    linarith
  obtain ⟨xr, exr, hxr⟩ := to_float_near hsum (by norm_num)
  refine ⟨xr, ?_, ?_⟩
  · simp only [x_rotated, Option.bind_eq_bind, Option.some_bind, sub_zero, ec, es, ex, ey,
      ep1, ep2, exr]
  · have h3 : xr - (c * x + s * y) = (xr - (p1 + p2)) + (p1 - c * x) + (p2 - s * y) := by
      ring
    have h4 := abs_add ((xr - (p1 + p2)) + (p1 - c * x)) (p2 - s * y)
    have h5 := abs_add (xr - (p1 + p2)) (p1 - c * x)
    have n1 : (524292 : ℚ) / 2 ^ 24 + 1 / 2 ^ 150 ≤ 1 / 30 := by norm_num
    rw [h3]
    linarith

/-- Line 110 within rounding error: for a cosine and sine of magnitude at most one and
coordinates of magnitude at most `2^18`, `y_rotated` is finite and within `1/10` of
`-sin*x1 + cos*y1`. -/
theorem y_rotated_near {c s : ℚ} {x y : Int} (hc : |c| ≤ 1) (hs : |s| ≤ 1)
    (hx : |x| ≤ 2 ^ 18) (hy : |y| ≤ 2 ^ 18) :
    ∃ yr : ℚ, y_rotated c s x y = some yr ∧ |yr - (-s * x + c * y)| ≤ 1 / 10 := by
  obtain ⟨c', ec, hc1, hc2⟩ := to_float_unit hc
  obtain ⟨s', es, hs1, hs2⟩ := to_float_unit hs
  have hxq : |(x : ℚ)| ≤ 2 ^ 18 := by
    have : ((|x| : Int) : ℚ) ≤ (((2 : Int) ^ 18 : Int) : ℚ) := by exact_mod_cast hx
    simpa using this
  have hyq : |(y : ℚ)| ≤ 2 ^ 18 := by
    have : ((|y| : Int) : ℚ) ≤ (((2 : Int) ^ 18 : Int) : ℚ) := by exact_mod_cast hy
    simpa using this
  have ex : to_float (x : ℚ) = some (x : ℚ) := to_float_intCast (by omega)
  have ey : to_float (y : ℚ) = some (y : ℚ) := to_float_intCast (by omega)
  -- (-1.0) * sin_value
  have hm : |(-1 : ℚ) * s'| ≤ 1 + 1 / 2 ^ 23 := by
    rw [neg_one_mul, abs_neg]; exact hs2
  obtain ⟨d1, ed1, hd1⟩ := to_double_near hm (by norm_num)
  have bd1 : |d1| ≤ 1 + 1 / 2 ^ 22 := by
    have := abs_le_of_abs_sub_le hd1 hm
    have n : (1 : ℚ) + 1 / 2 ^ 23 + ((1 + 1 / 2 ^ 23) / 2 ^ 53 + 1 / 2 ^ 1075) ≤
        1 + 1 / 2 ^ 22 := by norm_num
    linarith
  -- its product with (float)(x1 - x0)
  have hdx : |d1 * (x : ℚ)| ≤ (1 + 1 / 2 ^ 22) * 2 ^ 18 := abs_mul_le_mul bd1 hxq
  obtain ⟨d2, ed2, hd2⟩ := to_double_near hdx (by norm_num)
  have bd2 : |d2| ≤ 262146 := by
    have := abs_le_of_abs_sub_le hd2 hdx
    have n : (1 + 1 / 2 ^ 22) * 2 ^ 18 +
        ((1 + 1 / 2 ^ 22) * 2 ^ 18 / 2 ^ 53 + 1 / 2 ^ 1075) ≤ (262146 : ℚ) := by norm_num
    linarith
  -- cos_value * (float)(y1 - y0)
  obtain ⟨p3, ep3, hp3, bp3⟩ := to_float_mul_near hc1 hc2 hyq
  -- the sum, and its conversion to float
  have hsum : |d2 + p3| ≤ 524292 := by
    have := abs_add d2 p3
    linarith
  obtain ⟨d3, ed3, hd3⟩ := to_double_near hsum (by norm_num)
  have bd3 : |d3| ≤ 524293 := by
    have := abs_le_of_abs_sub_le hd3 hsum
    have n : (524292 : ℚ) + (524292 / 2 ^ 53 + 1 / 2 ^ 1075) ≤ 524293 := by norm_num
    linarith
  obtain ⟨yr, eyr, hyr⟩ := to_float_near bd3 (by norm_num)
  refine ⟨yr, ?_, ?_⟩
  · simp only [y_rotated, Option.bind_eq_bind, Option.some_bind, sub_zero, ec, es, ex, ey,
      ed1, ed2, ep3, ed3, eyr]
  · have t1 : |(d1 - (-1 : ℚ) * s') * (x : ℚ)| ≤
        ((1 + 1 / 2 ^ 23) / 2 ^ 53 + 1 / 2 ^ 1075) * 2 ^ 18 := abs_mul_le_mul hd1 hxq
    have t2 : |(s' - s) * (x : ℚ)| ≤ (1 / 2 ^ 24 + 1 / 2 ^ 150) * 2 ^ 18 :=
      abs_mul_le_mul hs1 hxq
    have h3 : yr - (-s * x + c * y) =
        (yr - d3) + (d3 - (d2 + p3)) + (d2 - d1 * x) + (d1 - (-1 : ℚ) * s') * x -
          (s' - s) * x + (p3 - c * y) := by ring
    have a1 := abs_add ((yr - d3) + (d3 - (d2 + p3)) + (d2 - d1 * x) +
      (d1 - (-1 : ℚ) * s') * x - (s' - s) * x) (p3 - c * y)
    have a2 := abs_sub ((yr - d3) + (d3 - (d2 + p3)) + (d2 - d1 * x) +
      (d1 - (-1 : ℚ) * s') * x) ((s' - s) * x)
    have a3 := abs_add ((yr - d3) + (d3 - (d2 + p3)) + (d2 - d1 * x))
      ((d1 - (-1 : ℚ) * s') * x)
    have a4 := abs_add ((yr - d3) + (d3 - (d2 + p3))) (d2 - d1 * x)
    have a5 := abs_add (yr - d3) (d3 - (d2 + p3))
    have n1 : (524293 : ℚ) / 2 ^ 24 + 1 / 2 ^ 150 + (524292 / 2 ^ 53 + 1 / 2 ^ 1075) +
        ((1 + 1 / 2 ^ 22) * 2 ^ 18 / 2 ^ 53 + 1 / 2 ^ 1075) +
        ((1 + 1 / 2 ^ 23) / 2 ^ 53 + 1 / 2 ^ 1075) * 2 ^ 18 +
        (1 / 2 ^ 24 + 1 / 2 ^ 150) * 2 ^ 18 + 1 / 30 ≤ 1 / 10 := by norm_num
    rw [h3]
    linarith

theorem intCast_abs_le {z : Int} {n : Nat} (h : |z| ≤ (n : Int)) : |(z : ℚ)| ≤ (n : ℚ) := by
  have : ((|z| : Int) : ℚ) ≤ (((n : Int)) : ℚ) := by exact_mod_cast h
  simpa using this

/-- The rotated coordinates within rounding and truncation error: for a cosine and sine
of magnitude at most one and coordinates of magnitude at most `2^18` both conversions to
`int` are defined, and each coordinate is within `1 + 1/10` of the exact rotated value. -/
theorem rotated_coords_near {c s : ℚ} {x y : Int} (hc : |c| ≤ 1) (hs : |s| ≤ 1)
    (hx : |x| ≤ 2 ^ 18) (hy : |y| ≤ 2 ^ 18) :
    ∃ x2 y2 : Int, rotated_coords c s x y = some (x2, y2) ∧
      |(x2 : ℚ) - (c * x + s * y)| < 1 + 1 / 10 ∧
      |(y2 : ℚ) - (-s * x + c * y)| < 1 + 1 / 10 := by
  obtain ⟨xr, exr, hxr⟩ := x_rotated_near hc hs hx hy
  obtain ⟨yr, eyr, hyr⟩ := y_rotated_near hc hs hx hy
  have hxq : |(x : ℚ)| ≤ 2 ^ 18 := by
    have := intCast_abs_le (z := x) (n := 2 ^ 18) (by exact_mod_cast hx)
    simpa using this
  have hyq : |(y : ℚ)| ≤ 2 ^ 18 := by
    have := intCast_abs_le (z := y) (n := 2 ^ 18) (by exact_mod_cast hy)
    simpa using this
  have hns : |-s| ≤ 1 := by rw [abs_neg]; exact hs
  have n18 : (1 : ℚ) * 2 ^ 18 = 262144 := by norm_num
  have b1 : |c * (x : ℚ) + s * (y : ℚ)| ≤ 524288 := by
    have := abs_add (c * (x : ℚ)) (s * (y : ℚ))
    have h1 : |c * (x : ℚ)| ≤ 1 * 2 ^ 18 := abs_mul_le_mul hc hxq
    have h2 : |s * (y : ℚ)| ≤ 1 * 2 ^ 18 := abs_mul_le_mul hs hyq
    linarith
  have b2 : |-s * (x : ℚ) + c * (y : ℚ)| ≤ 524288 := by
    have := abs_add (-s * (x : ℚ)) (c * (y : ℚ))
    have h1 : |-s * (x : ℚ)| ≤ 1 * 2 ^ 18 := abs_mul_le_mul hns hxq
    have h2 : |c * (y : ℚ)| ≤ 1 * 2 ^ 18 := abs_mul_le_mul hc hyq
    linarith
  have range : ∀ r t : ℚ, |r - t| ≤ 1 / 10 → |t| ≤ 524288 →
      -2 ^ 31 ≤ truncate_toward_zero r ∧ truncate_toward_zero r ≤ 2 ^ 31 - 1 := by
    intro r t h1 h2
    have h3 := abs_le_of_abs_sub_le h1 h2
    have h4 := abs_truncate_le r
    have h5 : |(truncate_toward_zero r : ℚ)| ≤ 524289 := by linarith
    have h6 : |truncate_toward_zero r| ≤ 524289 := by
      have : ((|truncate_toward_zero r| : Int) : ℚ) ≤ ((524289 : Int) : ℚ) := by
        rw [Int.cast_abs]; exact_mod_cast h5
      exact_mod_cast this
    have h7 := abs_le.mp h6
    constructor <;> omega
  have near : ∀ r t : ℚ, |r - t| ≤ 1 / 10 →
      |(truncate_toward_zero r : ℚ) - t| < 1 + 1 / 10 := by
    intro r t h1
    have h2 := abs_truncate_sub_lt_one r
    have h3 := abs_add ((truncate_toward_zero r : ℚ) - r) (r - t)
    rw [sub_add_sub_cancel] at h3
    linarith
  refine ⟨truncate_toward_zero xr, truncate_toward_zero yr, ?_, near _ _ hxr, near _ _ hyr⟩
  rw [rotated_coords_eq_some_iff]
  exact ⟨xr, yr, exr, eyr,
    (float_to_int_eq_some_iff xr _).mpr ⟨rfl, range _ _ hxr b1⟩,
    (float_to_int_eq_some_iff yr _).mpr ⟨rfl, range _ _ hyr b2⟩⟩

/-! ### Rotation by an angle and back -/

theorem abs_le_one_of_sq_add_sq {a b : ℚ} (h : a ^ 2 + b ^ 2 = 1) : |a| ≤ 1 := by
  rw [abs_le]
  constructor <;> nlinarith [sq_nonneg b, sq_nonneg (a - 1), sq_nonneg (a + 1)]

theorem abs_add_abs_le_of_sq_add_sq {a b : ℚ} (h : a ^ 2 + b ^ 2 = 1) :
    |a| + |b| ≤ 3 / 2 := by
  have ha : |a| ^ 2 = a ^ 2 := sq_abs a
  have hb : |b| ^ 2 = b ^ 2 := sq_abs b
  by_contra hlt
  push_neg at hlt
  nlinarith [sq_nonneg (|a| - |b|), abs_nonneg a, abs_nonneg b]

theorem one_lt_abs_add_abs {a b : ℚ} (h : a ^ 2 + b ^ 2 = 1) (ha : a ≠ 0) (hb : b ≠ 0) :
    1 < |a| + |b| := by
  have h1 : |a| ^ 2 = a ^ 2 := sq_abs a
  have h2 : |b| ^ 2 = b ^ 2 := sq_abs b
  have h3 : 0 < |a| := abs_pos.mpr ha
  have h4 : 0 < |b| := abs_pos.mpr hb
  by_contra hle
  push_neg at hle
  nlinarith [mul_pos h3 h4]

/-- The error of one coordinate after the return rotation: the value is the original
coordinate `t` plus the rotated errors `e1`, `e2` of the first pass plus the error `e3`
of the second pass. -/
theorem near_of_errors {a b : ℚ} (h : a ^ 2 + b ^ 2 = 1) {t z : Int} {e1 e2 : ℚ}
    (he1 : |e1| < 1 + 1 / 10) (he2 : |e2| < 1 + 1 / 10)
    (hz : |(z : ℚ) - ((t : ℚ) + a * e1 + b * e2)| < 1 + 1 / 10) :
    |z - t| ≤ 2 := by
  have hsum := abs_add_abs_le_of_sq_add_sq h
  have hae : |a * e1| ≤ |a| * (1 + 1 / 10) := by
    rw [abs_mul]
    exact mul_le_mul_of_nonneg_left (le_of_lt he1) (abs_nonneg a)
  have hbe : |b * e2| ≤ |b| * (1 + 1 / 10) := by
    rw [abs_mul]
    exact mul_le_mul_of_nonneg_left (le_of_lt he2) (abs_nonneg b)
  have hsplit : ((z - t : Int) : ℚ) =
      ((z : ℚ) - ((t : ℚ) + a * e1 + b * e2)) + a * e1 + b * e2 := by
    push_cast; ring
  have h1 := abs_add (((z : ℚ) - ((t : ℚ) + a * e1 + b * e2)) + a * e1) (b * e2)
  have h2 := abs_add ((z : ℚ) - ((t : ℚ) + a * e1 + b * e2)) (a * e1)
  have h3 : |((z - t : Int) : ℚ)| < 3 := by
    rw [hsplit]
    nlinarith [abs_nonneg a, abs_nonneg b]
  have h4 : ((|z - t| : Int) : ℚ) < ((3 : Int) : ℚ) := by
    rw [Int.cast_abs]
    exact_mod_cast h3
  have h5 : |z - t| < 3 := by exact_mod_cast h4
  omega

/-- Rotation there and back for a cosine and sine in `{-1, 0, 1}`: both passes are exact. -/
theorem round_trip_axis (c s x1 y1 : Int) (hc : |c| ≤ 1) (hs : |s| ≤ 1)
    (h : c * c + s * s = 1) (hx : |x1| ≤ 2 ^ 17) (hy : |y1| ≤ 2 ^ 17) :
    rotated_coords (c : ℚ) (s : ℚ) x1 y1 = some (c * x1 + s * y1, -s * x1 + c * y1) ∧
    rotated_coords (c : ℚ) (-(s : ℚ)) (c * x1 + s * y1) (-s * x1 + c * y1) =
      some (x1, y1) := by
  have hns : |-s| ≤ 1 := by rw [abs_neg]; exact hs
  have b1 : |c * x1| ≤ 2 ^ 17 := le_trans (abs_mul_le_of_abs_le_one hc) hx
  have b2 : |s * y1| ≤ 2 ^ 17 := le_trans (abs_mul_le_of_abs_le_one hs) hy
  have b3 : |-s * x1| ≤ 2 ^ 17 := le_trans (abs_mul_le_of_abs_le_one hns) hx
  have b4 : |c * y1| ≤ 2 ^ 17 := le_trans (abs_mul_le_of_abs_le_one hc) hy
  have b5 : |c * x1 + s * y1| ≤ 2 ^ 18 := by
    have := abs_add (c * x1) (s * y1); omega
  have b6 : |-s * x1 + c * y1| ≤ 2 ^ 18 := by
    have := abs_add (-s * x1) (c * y1); omega
  have e1 : c * (c * x1 + s * y1) + -s * (-s * x1 + c * y1) = x1 := by
    have : c * (c * x1 + s * y1) + -s * (-s * x1 + c * y1) = (c * c + s * s) * x1 := by ring
    rw [this, h, one_mul]
  have e2 : - -s * (c * x1 + s * y1) + c * (-s * x1 + c * y1) = y1 := by
    have : - -s * (c * x1 + s * y1) + c * (-s * x1 + c * y1) = (c * c + s * s) * y1 := by
      ring
    rw [this, h, one_mul]
  constructor
  · exact rotated_coords_intCast c s x1 y1 hc hs (by omega) (by omega) (by omega) (by omega)
  · have := rotated_coords_intCast c (-s) (c * x1 + s * y1) (-s * x1 + c * y1) hc hns
      (by omega) (by omega) (by rw [e1]; omega) (by rw [e2]; omega)
    rw [e1, e2] at this
    rw [← Int.cast_neg]
    exact this

/-- The conversions to `int` of a unit are defined for a cosine and sine of magnitude at
most one on an image of at most `2^18` rows and columns. -/
theorem rotated_coords_defined {c s : ℚ} (hc : |c| ≤ 1) (hs : |s| ≤ 1) {rows cols : Nat}
    (hrows : rows ≤ 2 ^ 18) (hcols : cols ≤ 2 ^ 18) :
    ∀ row col : Nat, row < rows → col < cols → rotated_coords c s row col ≠ none := by
  intro row col hrow hcol
  have h1 : |(row : Int)| ≤ 2 ^ 18 := by
    rw [abs_of_nonneg (Int.ofNat_nonneg row)]
    have : row ≤ 2 ^ 18 := by omega
    exact_mod_cast this
  have h2 : |(col : Int)| ≤ 2 ^ 18 := by
    rw [abs_of_nonneg (Int.ofNat_nonneg col)]
    have : col ≤ 2 ^ 18 := by omega
    exact_mod_cast this
  obtain ⟨x2, y2, e, _⟩ := rotated_coords_near hc hs h1 h2
  rw [e]
  exact fun h => Option.noConfusion h

/-- The kernel on a unit whose rotated coordinates are known, every conversion and
`size_t` operation as in the code. -/
theorem kernel_of_rotated {src dst : List Pixel} {c s : ℚ} {rows cols : Nat}
    {item : Nat × Nat} {x2 y2 : Int}
    (hxy : rotated_coords c s (size_to_int item.1) (size_to_int item.2) = some (x2, y2)) :
    ImageRot_v1_kernel src dst c s rows cols item =
      if decide (x2 ≥ 0) && decide (int_to_size x2 < cols) &&
          decide (y2 ≥ 0) && decide (int_to_size y2 < rows) then
        match src[(cols * int_to_size (size_to_int item.1) +
            int_to_size (size_to_int item.2)) % 2 ^ 64]? with
        | none => none
        | some v =>
          if (cols * int_to_size y2 + int_to_size x2) % 2 ^ 64 < dst.length then
            some (dst.set ((cols * int_to_size y2 + int_to_size x2) % 2 ^ 64) v)
          else none
      else some dst := by
  unfold ImageRot_v1_kernel
  simp only [hxy]

/-- A unit whose rotated coordinates pass the bounds test and whose read index lies
outside the source buffer has no defined effect, whatever the destination. -/
theorem kernel_none_of_read_outside {src : List Pixel} {c s : ℚ} {rows cols : Nat}
    {item : Nat × Nat} {x2 y2 : Int}
    (hxy : rotated_coords c s (size_to_int item.1) (size_to_int item.2) = some (x2, y2))
    (hchk : (decide (x2 ≥ 0) && decide (int_to_size x2 < cols) &&
      decide (y2 ≥ 0) && decide (int_to_size y2 < rows)) = true)
    (hidx : src.length ≤
      (cols * int_to_size (size_to_int item.1) + int_to_size (size_to_int item.2)) % 2 ^ 64)
    (d : List Pixel) :
    ImageRot_v1_kernel src d c s rows cols item = none := by
  rw [kernel_of_rotated hxy, if_pos hchk, List.getElem?_eq_none hidx]

/-! ### Properties of the kernel body -/

/-- C1 as amended: per-unit effect of the kernel body.  On buffers of `rows*cols` elements
with `rows, cols <= 2^31` (every id fits `int`), for a work item `(row, col)` of the index
space whose conversions to `int` are defined, with `(x2, y2)` its rotated coordinates:
when `0 <= x2 < cols` and `0 <= y2 < rows` the unit stores, and the destination afterwards
is the old one with exactly the cell at offset `cols*y2 + x2` replaced by
`src[cols*row + col]`; otherwise the unit stores nothing and the destination is unchanged.
A negative `x2` or `y2` never passes the test. -/
theorem kernel_unit_effect (rows cols : Nat) (c s : ℚ) (src dst : List Pixel)
    (row col : Nat) (x2 y2 : Int) (hsrc : src.length = rows * cols)
    (hdst : dst.length = rows * cols) (hrows : rows ≤ 2 ^ 31) (hcols : cols ≤ 2 ^ 31)
    (hrow : row < rows) (hcol : col < cols)
    (hxy : rotated_coords c s row col = some (x2, y2)) :
    (0 ≤ x2 ∧ x2 < (cols : Int) ∧ 0 ≤ y2 ∧ y2 < (rows : Int) →
        ∃ (v : Pixel) (dst' : List Pixel),
          src[cols * row + col]? = some v ∧
          ImageRot_v1_kernel src dst c s rows cols (row, col) = some dst' ∧
          dst' = dst.set (cols * y2.toNat + x2.toNat) v ∧
          cols * y2.toNat + x2.toNat < dst.length ∧
          dst'.length = dst.length ∧
          dst'[cols * y2.toNat + x2.toNat]? = some v ∧
          ∀ j : Nat, j ≠ cols * y2.toNat + x2.toNat → dst'[j]? = dst[j]?) ∧
    (¬ (0 ≤ x2 ∧ x2 < (cols : Int) ∧ 0 ≤ y2 ∧ y2 < (rows : Int)) →
        ImageRot_v1_kernel src dst c s rows cols (row, col) = some dst) := by
  have hi : cols * row + col < src.length := hsrc ▸ offset_lt hrow hcol
  have hker := @kernel_of_coords src dst c s rows cols (row, col) x2 y2 hsrc hdst hrows
    hcols hrow hcol hxy
  have hv : src.getD (cols * row + col) 0 = src[cols * row + col] := by
    rw [List.getD_eq_getElem?_getD, List.getElem?_eq_getElem hi, Option.getD_some]
  constructor
  · intro hb
    have hb' : in_bounds rows cols x2 y2 := hb
    have hk : cols * y2.toNat + x2.toNat < dst.length := hdst ▸ in_bounds_offset_lt hb'
    rw [if_pos hb'] at hker
    refine ⟨src[cols * row + col], _, List.getElem?_eq_getElem hi, hker, ?_, hk, ?_, ?_, ?_⟩
    · show dst.set _ (src.getD (cols * row + col) 0) = _
      rw [hv]
    · rw [List.length_set]
    · show (dst.set _ (src.getD (cols * row + col) 0))[_]? = _
      rw [hv, List.getElem?_set_self hk]
    · intro j hj
      rw [List.getElem?_set_ne (Ne.symm hj)]
  · intro hb
    have hb' : ¬ in_bounds rows cols x2 y2 := hb
    rw [if_neg hb'] at hker
    exact hker

/-- An instance of C1 as amended: the unit `(1, 0)` of a 2x2 image with `cos = 7/10`,
`sin = -7/10` has rotated coordinates `(0, 0)` and stores `src[2]` at offset `0`. -/
theorem kernel_unit_effect_witness :
    rotated_coords (7/10) (-7/10) (1 : Nat) (0 : Nat) = some (0, 0) ∧
    ImageRot_v1_kernel [1, 2, 3, 4] (hOutputImage 2 2) (7/10) (-7/10) 2 2 (1, 0) =
      some [3, 1234, 1234, 1234] := by
  have hxy : rotated_coords (7/10) (-7/10) (1 : Nat) (0 : Nat) = some (0, 0) := by decide!
  obtain ⟨v, dst', hv, h1, h2, _⟩ :=
    (kernel_unit_effect 2 2 (7/10) (-7/10) [1, 2, 3, 4] (hOutputImage 2 2) 1 0 0 0
      (by decide) (by decide) (by decide) (by decide) (by decide) (by decide) hxy).1
      (by decide)
  have hv3 : v = 3 := by
    have : ([1, 2, 3, 4] : List Pixel)[2]? = some v := hv
    simpa using this.symm
  subst hv3
  subst h2
  exact ⟨hxy, h1⟩

/-- C1 as stated fails on the code.  (a) With `cos = 0`, `sin = 2^31` the unit `(0, 1)` of
a 1x2 image has `x_rotated = 2^31`, whose conversion to `int` is undefined, so the unit
has no defined effect, where the claim (truncated coordinates `(2^31, 0)`, out of bounds)
has the destination unchanged.  (b) With `cos = 1`, `sin = 0` the id `(2^32, 0)` of a
`(2^32+1)x1` image wraps to `row = 0`: the unit stores `src[0] = 7` at offset `0`, where
the claim has the truncated coordinates `(2^32, 0)`, out of bounds, hence no store, and
`src[cols*row + col] = src[2^32] = 0` as the value of a store. -/
theorem kernel_unit_effect_counterexample :
    (ImageRot_v1_kernel [1, 2] (hOutputImage 1 2) 0 (2 ^ 31) 1 2 (0, 1) = none ∧
      truncate_toward_zero ((0 : ℚ) * ((0 : Nat) : ℚ) + 2 ^ 31 * ((1 : Nat) : ℚ)) = 2 ^ 31 ∧
      ¬ ((2 : Int) ^ 31 < ((2 : Nat) : Int))) ∧
    (ImageRot_v1_kernel (7 :: List.replicate (2 ^ 32) 0) (hOutputImage (2 ^ 32 + 1) 1) 1 0
        (2 ^ 32 + 1) 1 (2 ^ 32, 0) =
      some ((hOutputImage (2 ^ 32 + 1) 1).set 0 7) ∧
      ((7 :: List.replicate (2 ^ 32) 0 : List Pixel)).length = (2 ^ 32 + 1) * 1 ∧
      (7 :: List.replicate (2 ^ 32) 0 : List Pixel)[1 * 2 ^ 32 + 0]? = some 0 ∧
      ((hOutputImage (2 ^ 32 + 1) 1).set 0 7)[0]? = some 7 ∧
      (hOutputImage (2 ^ 32 + 1) 1)[0]? = some 1234 ∧
      truncate_toward_zero ((1 : ℚ) * ((2 ^ 32 : Nat) : ℚ) + 0 * ((0 : Nat) : ℚ)) = 2 ^ 32 ∧
      ¬ ((2 : Int) ^ 32 < ((1 : Nat) : Int))) := by
  have hlen : (hOutputImage (2 ^ 32 + 1) 1).length = 2 ^ 32 + 1 := by
    unfold hOutputImage
    rw [List.length_replicate, Nat.mul_one]
  have h0 : 0 < (hOutputImage (2 ^ 32 + 1) 1).length := by rw [hlen]; norm_num
  refine ⟨⟨by decide!, by decide!, by decide⟩, ?_, ?_, ?_, ?_, ?_, by decide!, by decide⟩
  · have hxy : rotated_coords 1 0 (size_to_int ((2 ^ 32, 0) : Nat × Nat).1)
        (size_to_int ((2 ^ 32, 0) : Nat × Nat).2) = some (0, 0) := by decide!
    rw [kernel_of_rotated hxy]
    have hchk : (decide ((0 : Int) ≥ 0) && decide (int_to_size 0 < 1) &&
        decide ((0 : Int) ≥ 0) && decide (int_to_size 0 < 2 ^ 32 + 1)) = true := by decide!
    have hidx : (1 * int_to_size (size_to_int ((2 ^ 32, 0) : Nat × Nat).1) +
        int_to_size (size_to_int ((2 ^ 32, 0) : Nat × Nat).2)) % 2 ^ 64 = 0 := by decide!
    have hk : (1 * int_to_size 0 + int_to_size 0) % 2 ^ 64 = 0 := by decide!
    rw [if_pos hchk, hidx, hk, List.getElem?_cons_zero]
    simp only [if_pos h0]
  · rw [List.length_cons, List.length_replicate, Nat.mul_one]
  · have e : (1 * 2 ^ 32 + 0 : Nat) = 4294967295 + 1 := by norm_num
    rw [e, List.getElem?_cons_succ, List.getElem?_replicate, if_pos (by norm_num)]
  · rw [List.getElem?_set_self h0]
  · unfold hOutputImage
    rw [List.getElem?_replicate, if_pos (by norm_num)]

/-- C2 as amended: the rotation transform of the kernel body.  With `x1 = row`,
`y1 = col` about the origin `(0, 0)` the destination coordinates are
`x2 = trunc(x_rotated)` and `y2 = trunc(y_rotated)`, defined when both truncations are
`int` values, where `x_rotated` and `y_rotated` are `cos*x1 + sin*y1` and
`-sin*x1 + cos*y1` as evaluated by lines 109-110 with every operation rounded to the
nearest `float` (`double` inside line 110): within `1/10` of the exact values for
`|cos|, |sin| <= 1` and `|x1|, |y1| <= 2^18`, and equal to them for `cos`, `sin` in
`{-1, 0, 1}` and `|x1|, |y1| <= 2^23`.  `trunc` discards the fractional part toward zero:
it rounds a non-negative value down and a non-positive value up, never increases the
magnitude and changes the value by less than one.  It is neither floor nor rounding to
nearest.  Every value strictly between `-1` and `1` yields `0`, so a rotated coordinate in
`(-1, 0)` passes the `>= 0` test although its floor is `-1`. -/
theorem rotated_coords_truncate (c s : ℚ) (row col : Int) :
    (∀ x2 y2 : Int, rotated_coords c s row col = some (x2, y2) ↔
      ∃ xr yr : ℚ, x_rotated c s row col = some xr ∧ y_rotated c s row col = some yr ∧
        x2 = truncate_toward_zero xr ∧ y2 = truncate_toward_zero yr ∧
        (-2 ^ 31 ≤ x2 ∧ x2 ≤ 2 ^ 31 - 1) ∧ (-2 ^ 31 ≤ y2 ∧ y2 ≤ 2 ^ 31 - 1)) ∧
    (|c| ≤ 1 → |s| ≤ 1 → |row| ≤ 2 ^ 18 → |col| ≤ 2 ^ 18 →
      ∃ xr yr : ℚ, x_rotated c s row col = some xr ∧ y_rotated c s row col = some yr ∧
        |xr - (c * row + s * col)| ≤ 1 / 10 ∧ |yr - (-s * row + c * col)| ≤ 1 / 10) ∧
    (∀ ci si : Int, c = (ci : ℚ) → s = (si : ℚ) → |ci| ≤ 1 → |si| ≤ 1 →
      |row| ≤ 2 ^ 23 → |col| ≤ 2 ^ 23 →
      x_rotated c s row col = some (c * row + s * col) ∧
      y_rotated c s row col = some (-s * row + c * col) ∧
      rotated_coords c s row col =
        some (truncate_toward_zero (c * row + s * col),
          truncate_toward_zero (-s * row + c * col))) ∧
    (∀ x : ℚ, (∀ z : Int, float_to_int x = some z → z = truncate_toward_zero x) ∧
      (0 ≤ x → truncate_toward_zero x = ⌊x⌋) ∧ (x ≤ 0 → truncate_toward_zero x = ⌈x⌉) ∧
      |(truncate_toward_zero x : ℚ)| ≤ |x| ∧ |(truncate_toward_zero x : ℚ) - x| < 1) ∧
    (∀ x : ℚ, -1 < x → x < 1 → float_to_int x = some 0) ∧
    (∀ x : ℚ, -1 < x → x < 0 → float_to_int x = some 0 ∧ ⌊x⌋ = -1) ∧
    (float_to_int (-1 / 2) = some 0 ∧ ⌊(-1 / 2 : ℚ)⌋ = -1) ∧
    (float_to_int (3 / 4) = some 0 ∧ round (3 / 4 : ℚ) = 1) := by
  have zero_of : ∀ x : ℚ, -1 < x → x < 1 → float_to_int x = some 0 := by
    intro x h1 h2
    rw [float_to_int_eq_some_iff, truncate_eq_zero h1 h2]
    exact ⟨rfl, by norm_num, by norm_num⟩
  refine ⟨?_, ?_, ?_, ?_, zero_of, ?_, ?_, ?_⟩
  · intro x2 y2
    rw [rotated_coords_eq_some_iff]
    constructor
    · rintro ⟨xr, yr, h1, h2, h3, h4⟩
      obtain ⟨e3, r3⟩ := (float_to_int_eq_some_iff xr x2).mp h3
      obtain ⟨e4, r4⟩ := (float_to_int_eq_some_iff yr y2).mp h4
      exact ⟨xr, yr, h1, h2, e3, e4, r3, r4⟩
    · rintro ⟨xr, yr, h1, h2, e3, e4, r3, r4⟩
      exact ⟨xr, yr, h1, h2, (float_to_int_eq_some_iff xr x2).mpr ⟨e3, r3⟩,
        (float_to_int_eq_some_iff yr y2).mpr ⟨e4, r4⟩⟩
  · intro hc hs hrow hcol
    obtain ⟨xr, exr, hxr⟩ := x_rotated_near hc hs hrow hcol
    obtain ⟨yr, eyr, hyr⟩ := y_rotated_near hc hs hrow hcol
    exact ⟨xr, yr, exr, eyr, hxr, hyr⟩
  · rintro ci si rfl rfl hci hsi hrow hcol
    have hns : |-si| ≤ 1 := by rw [abs_neg]; exact hsi
    have b1 : |ci * row| ≤ 2 ^ 23 := le_trans (abs_mul_le_of_abs_le_one hci) hrow
    have b2 : |si * col| ≤ 2 ^ 23 := le_trans (abs_mul_le_of_abs_le_one hsi) hcol
    have b3 : |-si * row| ≤ 2 ^ 23 := le_trans (abs_mul_le_of_abs_le_one hns) hrow
    have b4 : |ci * col| ≤ 2 ^ 23 := le_trans (abs_mul_le_of_abs_le_one hci) hcol
    have b5 : |ci * row + si * col| ≤ 2 ^ 24 := by
      have := abs_add (ci * row) (si * col); omega
    have b6 : |-si * row + ci * col| ≤ 2 ^ 24 := by
      have := abs_add (-si * row) (ci * col); omega
    have ex := x_rotated_intCast ci si row col hci hsi (by omega) (by omega) b5
    have ey := y_rotated_intCast ci si row col hci hsi (by omega) (by omega) b6
    have er := rotated_coords_intCast ci si row col hci hsi (by omega) (by omega) b5 b6
    have t1 : truncate_toward_zero ((ci : ℚ) * (row : ℚ) + (si : ℚ) * (col : ℚ)) =
        ci * row + si * col := by
      have := truncate_intCast (ci * row + si * col)
      push_cast at this
      exact this
    have t2 : truncate_toward_zero (-(si : ℚ) * (row : ℚ) + (ci : ℚ) * (col : ℚ)) =
        -si * row + ci * col := by
      have := truncate_intCast (-si * row + ci * col)
      push_cast at this
      exact this
    refine ⟨?_, ?_, ?_⟩
    · rw [ex]; push_cast; rfl
    · rw [ey]; push_cast; rfl
    · rw [er, t1, t2]
  · intro x
    refine ⟨fun z hz => ((float_to_int_eq_some_iff x z).mp hz).1, ?_, ?_,
      abs_truncate_le x, abs_truncate_sub_lt_one x⟩
    · intro h
      unfold truncate_toward_zero
      rw [if_pos h]
    · intro h
      unfold truncate_toward_zero
      split_ifs with h0
      · have : x = 0 := le_antisymm h h0
        rw [this]; simp
      · rfl
  · intro x h1 h2
    refine ⟨zero_of x h1 (by linarith), ?_⟩
    rw [Int.floor_eq_iff]
    constructor
    · push_cast; linarith
    · push_cast; linarith
  · refine ⟨zero_of _ (by norm_num) (by norm_num), ?_⟩
    rw [Int.floor_eq_iff]; constructor <;> norm_num
  · refine ⟨zero_of _ (by norm_num) (by norm_num), ?_⟩
    rw [round_eq, Int.floor_eq_iff]; constructor <;> norm_num

/-- An instance of C2 as amended: for `cos = 3/5`, `sin = 4/5` and the source coordinates
`(5, 9)` the values of lines 109-110 are within `1/10` of `3/5*5 + 4/5*9` and
`-4/5*5 + 3/5*9`. -/
theorem rotated_coords_truncate_witness :
    ∃ xr yr : ℚ, x_rotated (3 / 5) (4 / 5) 5 9 = some xr ∧
      y_rotated (3 / 5) (4 / 5) 5 9 = some yr ∧
      |xr - ((3 / 5 : ℚ) * ((5 : Int) : ℚ) + (4 / 5 : ℚ) * ((9 : Int) : ℚ))| ≤ 1 / 10 ∧
      |yr - (-(4 / 5 : ℚ) * ((5 : Int) : ℚ) + (3 / 5 : ℚ) * ((9 : Int) : ℚ))| ≤ 1 / 10 :=
  (rotated_coords_truncate (3 / 5) (4 / 5) 5 9).2.1 (by norm_num [abs_le])
    (by norm_num [abs_le]) (by decide) (by decide)

/-- C2 as stated fails on the code: for the `float` values `cos = 0.9f`, `sin = 0.1f` and
the work item `(1, 1)` the sum of line 109 rounds to `1.0f`, so the code has `x2 = 1`,
where the exact value `cos*1 + sin*1 = 0.99999998...` truncates to `0`. -/
theorem rotated_coords_truncate_counterexample :
    to_float (15099494 / 16777216) = some (15099494 / 16777216) ∧
    to_float (13421773 / 134217728) = some (13421773 / 134217728) ∧
    rotated_coords (15099494 / 16777216) (13421773 / 134217728) 1 1 = some (1, 0) ∧
    truncate_toward_zero ((15099494 / 16777216 : ℚ) * ((1 : Int) : ℚ) +
      (13421773 / 134217728 : ℚ) * ((1 : Int) : ℚ)) = 0 := by
  refine ⟨by decide!, by decide!, by decide!, by decide!⟩

/-! ### Properties of a run -/

/-- C6 as amended: index safety and size invariant.  The read offset `cols*row + col` of
a work item of the index space is below `rows*cols`, and the write offset `cols*y2 + x2`
is below `rows*cols` whenever the bounds test passes.  For buffers of `rows*cols`
elements with `rows, cols <= 2^31` (every id fits `int`) and units whose conversions to
`int` are defined, a unit yields a destination of `rows*cols` elements without indexing
outside a buffer, and so does a whole run in any execution order. -/
theorem index_safety (rows cols : Nat) (c s : ℚ) (src dst : List Pixel)
    (hsrc : src.length = rows * cols) (hdst : dst.length = rows * cols)
    (hrows : rows ≤ 2 ^ 31) (hcols : cols ≤ 2 ^ 31)
    (hdef : ∀ row col : Nat, row < rows → col < cols → rotated_coords c s row col ≠ none) :
    (∀ row col : Nat, row < rows → col < cols →
      cols * row + col < rows * cols ∧
      (∀ x2 y2 : Int, 0 ≤ x2 ∧ x2 < (cols : Int) ∧ 0 ≤ y2 ∧ y2 < (rows : Int) →
        cols * y2.toNat + x2.toNat < rows * cols) ∧
      ∃ dst' : List Pixel,
        ImageRot_v1_kernel src dst c s rows cols (row, col) = some dst' ∧
        dst'.length = rows * cols) ∧
    (∀ q : List (Nat × Nat), q.Perm (num_items rows cols) →
      ∃ out : List Pixel,
        ImageRot_v1 q src dst c s rows cols = some out ∧ out.length = rows * cols) := by
  constructor
  · intro row col hrow hcol
    refine ⟨offset_lt hrow hcol, fun x2 y2 hb => in_bounds_offset_lt hb, _,
      @kernel_eq_unit_effect src dst c s rows cols (row, col) hsrc hdst hrows hcols
        hrow hcol (hdef row col hrow hcol), ?_⟩
    rw [unit_effect_length, hdst]
  · intro q hq
    refine ⟨_, run_eq_foldl hsrc hrows hcols hdef q dst hdst (perm_num_items_mem hq), ?_⟩
    rw [foldl_unit_effect_length, hdst]

/-- An instance of C6 as amended: a 2x3 image rotated with `cos = 3/5`, `sin = 4/5`,
executed in row-major order from the sentinel-filled output of `main`. -/
theorem index_safety_witness :
    ∃ out : List Pixel,
      ImageRot_v1 (num_items 2 3) [1, 2, 3, 4, 5, 6] (hOutputImage 2 3) (3/5) (4/5) 2 3 =
        some out ∧ out.length = 2 * 3 :=
  (index_safety 2 3 (3/5) (4/5) [1, 2, 3, 4, 5, 6] (hOutputImage 2 3)
    (by decide) (by decide) (by norm_num) (by norm_num)
    (rotated_coords_defined (by norm_num [abs_le]) (by norm_num [abs_le]) (by norm_num)
      (by norm_num))).2 (num_items 2 3) (List.Perm.refl _)

/-- C6 as stated fails on the code.  (a) With `cos = 2^31`, `sin = 0` the unit `(0, 1)` of
a 1x2 image has `y_rotated = 2^31`, whose conversion to `int` is undefined.  (b) In a
`(2^31+1)x1` image the id `(2^31, 0)` converts to `row = -2^31`; with `cos = 0`,
`sin = 1/2` its rotated coordinates `(0, 2^30)` pass the bounds test, and the unit reads
`srcPtr` at `2^64 - 2^31`, outside the buffer of `2^31 + 1` elements. -/
theorem index_safety_counterexample :
    ImageRot_v1_kernel [1, 2] (hOutputImage 1 2) (2 ^ 31) 0 1 2 (0, 1) = none ∧
    (List.replicate (2 ^ 31 + 1) (0 : Pixel)).length = (2 ^ 31 + 1) * 1 ∧
    (hOutputImage (2 ^ 31 + 1) 1).length = (2 ^ 31 + 1) * 1 ∧
    size_to_int (2 ^ 31) = -2 ^ 31 ∧
    rotated_coords 0 (1 / 2) (size_to_int (2 ^ 31)) (size_to_int 0) = some (0, 2 ^ 30) ∧
    (1 * int_to_size (size_to_int (2 ^ 31)) + int_to_size (size_to_int 0)) % 2 ^ 64 =
      2 ^ 64 - 2 ^ 31 ∧
    ImageRot_v1_kernel (List.replicate (2 ^ 31 + 1) 0) (hOutputImage (2 ^ 31 + 1) 1)
      0 (1 / 2) (2 ^ 31 + 1) 1 (2 ^ 31, 0) = none := by
  have hxy : rotated_coords 0 (1 / 2) (size_to_int ((2 ^ 31, 0) : Nat × Nat).1)
      (size_to_int ((2 ^ 31, 0) : Nat × Nat).2) = some (0, 2 ^ 30) := by decide!
  have hidx : (1 * int_to_size (size_to_int ((2 ^ 31, 0) : Nat × Nat).1) +
      int_to_size (size_to_int ((2 ^ 31, 0) : Nat × Nat).2)) % 2 ^ 64 =
        2 ^ 64 - 2 ^ 31 := by decide!
  refine ⟨by decide!, ?_, ?_, by decide!, hxy, hidx, ?_⟩
  · rw [List.length_replicate, Nat.mul_one]
  · unfold hOutputImage
    rw [List.length_replicate]
  · rw [kernel_of_rotated hxy]
    have hchk : (decide ((0 : Int) ≥ 0) && decide (int_to_size 0 < 1) &&
        decide ((2 : Int) ^ 30 ≥ 0) && decide (int_to_size (2 ^ 30) < 2 ^ 31 + 1)) = true := by
      decide!
    rw [if_pos hchk, hidx, List.getElem?_replicate, if_neg (by norm_num)]

/-- C4 as amended: sentinel retention over a whole run.  For `rows, cols <= 2^31` (every
id fits `int`) and units whose conversions to `int` are defined, in any execution order
of the `rows*cols` work items, a destination offset that is not `cols*y2 + x2` for any
source pixel whose rotated coordinates pass the bounds test holds after the run the value
it held before; from the output buffer of `main` that value is `1234`. -/
theorem sentinel_retention (rows cols : Nat) (c s : ℚ) (src dst : List Pixel)
    (q : List (Nat × Nat)) (k : Nat)
    (hsrc : src.length = rows * cols) (hdst : dst.length = rows * cols)
    (hrows : rows ≤ 2 ^ 31) (hcols : cols ≤ 2 ^ 31)
    (hdef : ∀ row col : Nat, row < rows → col < cols → rotated_coords c s row col ≠ none)
    (hq : q.Perm (num_items rows cols))
    (hk : ∀ (row col : Nat) (x2 y2 : Int), row < rows → col < cols →
      rotated_coords c s row col = some (x2, y2) →
      0 ≤ x2 ∧ x2 < (cols : Int) ∧ 0 ≤ y2 ∧ y2 < (rows : Int) →
      cols * y2.toNat + x2.toNat ≠ k) :
    ∃ out : List Pixel,
      ImageRot_v1 q src dst c s rows cols = some out ∧
      out[k]? = dst[k]? ∧
      (dst = hOutputImage rows cols → k < rows * cols → out[k]? = some 1234) := by
  obtain ⟨out, hrun, _, _, hn⟩ :=
    @run_getElem_opt src dst c s rows cols q hsrc hdst hrows hcols hdef
      (perm_num_items_mem hq)
  have hnone : last_writer c s rows cols q k = none := by
    rw [last_writer_eq_none_iff]
    intro item hitem hd
    obtain ⟨hr, hc⟩ := perm_num_items_mem hq item hitem
    obtain ⟨x2, y2, hxy, hb, he⟩ := (dest_offset_eq_some_iff c s rows cols item k).mp hd
    rw [size_to_int_of_lt (lt_of_lt_of_le hr hrows),
      size_to_int_of_lt (lt_of_lt_of_le hc hcols)] at hxy
    exact hk item.1 item.2 x2 y2 hr hc hxy hb he
  have hout := hn k hnone
  refine ⟨out, hrun, hout, ?_⟩
  intro hd hlt
  rw [hout, hd, hOutputImage, List.getElem?_replicate, if_pos hlt]

/-- An instance of C4 as amended: with `cos = 7/10`, `sin = -7/10` no pixel of a 2x2 image
maps to offset `1`, which keeps the sentinel. -/
theorem sentinel_retention_witness :
    ∃ out : List Pixel,
      ImageRot_v1 (num_items 2 2) [1, 2, 3, 4] (hOutputImage 2 2) (7/10) (-7/10) 2 2 =
        some out ∧
      out[1]? = (hOutputImage 2 2)[1]? ∧
      (hOutputImage 2 2 = hOutputImage 2 2 → 1 < 2 * 2 → out[1]? = some 1234) :=
  sentinel_retention 2 2 (7/10) (-7/10) [1, 2, 3, 4] (hOutputImage 2 2) (num_items 2 2) 1
    (by decide) (by decide) (by norm_num) (by norm_num)
    (rotated_coords_defined (by norm_num [abs_le]) (by norm_num [abs_le]) (by norm_num)
      (by norm_num))
    (List.Perm.refl _)
    (by
      intro row col x2 y2 hr hc h hb
      interval_cases row <;> interval_cases col
      · rw [show rotated_coords (7/10) (-7/10) ((0 : Nat) : Int) ((0 : Nat) : Int) =
          some (0, 0) by decide!] at h
        obtain ⟨rfl, rfl⟩ := Prod.mk.inj (Option.some.inj h)
        decide
      · rw [show rotated_coords (7/10) (-7/10) ((0 : Nat) : Int) ((1 : Nat) : Int) =
          some (0, 0) by decide!] at h
        obtain ⟨rfl, rfl⟩ := Prod.mk.inj (Option.some.inj h)
        decide
      · rw [show rotated_coords (7/10) (-7/10) ((1 : Nat) : Int) ((0 : Nat) : Int) =
          some (0, 0) by decide!] at h
        obtain ⟨rfl, rfl⟩ := Prod.mk.inj (Option.some.inj h)
        decide
      · rw [show rotated_coords (7/10) (-7/10) ((1 : Nat) : Int) ((1 : Nat) : Int) =
          some (0, 1) by decide!] at h
        obtain ⟨rfl, rfl⟩ := Prod.mk.inj (Option.some.inj h)
        decide)

/-- C4 as stated fails on the code.  (a) With `cos = 0`, `sin = 2^31` the unit `(0, 1)` of
a 1x2 image has `x_rotated = 2^31`, whose conversion to `int` is undefined, so the run has
no defined result, where the claim has offset `1` (the destination of no pixel: the
truncated coordinates of `(0, 1)` are `(2^31, 0)`, out of bounds) keep its value.
(b) In a `(2^31+1)x1` image with `cos = 0`, `sin = 1/2` the id `(2^31, 0)` converts to
`row = -2^31`, its unit passes the bounds test and reads outside the source buffer, so
the run has no defined result. -/
theorem sentinel_retention_counterexample :
    (ImageRot_v1 (num_items 1 2) [1, 2] (hOutputImage 1 2) 0 (2 ^ 31) 1 2 = none ∧
      x_rotated 0 (2 ^ 31) (0 : Nat) (1 : Nat) = some (2 ^ 31) ∧
      float_to_int (2 ^ 31) = none) ∧
    ImageRot_v1 (num_items (2 ^ 31 + 1) 1) (List.replicate (2 ^ 31 + 1) 0)
      (hOutputImage (2 ^ 31 + 1) 1) 0 (1 / 2) (2 ^ 31 + 1) 1 = none := by
  refine ⟨⟨by decide!, by decide!, by decide!⟩, ?_⟩
  have hxy : rotated_coords 0 (1 / 2) (size_to_int ((2 ^ 31, 0) : Nat × Nat).1)
      (size_to_int ((2 ^ 31, 0) : Nat × Nat).2) = some (0, 2 ^ 30) := by decide!
  have hchk : (decide ((0 : Int) ≥ 0) && decide (int_to_size 0 < 1) &&
      decide ((2 : Int) ^ 30 ≥ 0) && decide (int_to_size (2 ^ 30) < 2 ^ 31 + 1)) = true := by
    decide!
  have hidx : (List.replicate (2 ^ 31 + 1) (0 : Pixel)).length ≤
      (1 * int_to_size (size_to_int ((2 ^ 31, 0) : Nat × Nat).1) +
        int_to_size (size_to_int ((2 ^ 31, 0) : Nat × Nat).2)) % 2 ^ 64 := by
    rw [List.length_replicate]
    decide!
  exact run_none_of_unit_none (kernel_none_of_read_outside hxy hchk hidx) _ _
    ((mem_num_items _ _ _).mpr ⟨by norm_num, by norm_num⟩)

/-- C8 as amended: order independence away from collisions.  A run executes the
`rows*cols` work items sequentially in an arbitrary order.  For `rows, cols <= 2^31`
(every id fits `int`) and units whose conversions to `int` are defined, the final value at
offset `k` is the source value of the last executed unit whose in-bounds destination
offset is `k` (the initial value when there is none).  Two execution orders give final
buffers that agree at every offset that is the destination of at most one source pixel,
and equal final buffers when no two source pixels share a destination. -/
theorem last_write_wins (rows cols : Nat) (c s : ℚ) (src dst : List Pixel)
    (q1 q2 : List (Nat × Nat)) (hsrc : src.length = rows * cols)
    (hdst : dst.length = rows * cols) (hrows : rows ≤ 2 ^ 31) (hcols : cols ≤ 2 ^ 31)
    (hdef : ∀ row col : Nat, row < rows → col < cols → rotated_coords c s row col ≠ none)
    (hq1 : q1.Perm (num_items rows cols)) (hq2 : q2.Perm (num_items rows cols)) :
    ∃ out1 out2 : List Pixel,
      ImageRot_v1 q1 src dst c s rows cols = some out1 ∧
      ImageRot_v1 q2 src dst c s rows cols = some out2 ∧
      (∀ (k : Nat) (item : Nat × Nat), last_writer c s rows cols q1 k = some item →
        out1[k]? = src[cols * item.1 + item.2]?) ∧
      (∀ k : Nat, last_writer c s rows cols q1 k = none → out1[k]? = dst[k]?) ∧
      (∀ k : Nat,
        (∀ a b : Nat × Nat, a.1 < rows → a.2 < cols → b.1 < rows → b.2 < cols →
          dest_offset c s rows cols a = some k → dest_offset c s rows cols b = some k →
          a = b) →
        out1[k]? = out2[k]?) ∧
      ((∀ (k : Nat) (a b : Nat × Nat), a.1 < rows → a.2 < cols → b.1 < rows → b.2 < cols →
          dest_offset c s rows cols a = some k → dest_offset c s rows cols b = some k →
          a = b) →
        out1 = out2) := by
  obtain ⟨out1, h1, _, hs1, hn1⟩ :=
    @run_getElem_opt src dst c s rows cols q1 hsrc hdst hrows hcols hdef
      (perm_num_items_mem hq1)
  obtain ⟨out2, h2, _, hs2, hn2⟩ :=
    @run_getElem_opt src dst c s rows cols q2 hsrc hdst hrows hcols hdef
      (perm_num_items_mem hq2)
  have hagree : ∀ k : Nat,
      (∀ a b : Nat × Nat, a.1 < rows → a.2 < cols → b.1 < rows → b.2 < cols →
        dest_offset c s rows cols a = some k → dest_offset c s rows cols b = some k →
        a = b) →
      out1[k]? = out2[k]? := by
    intro k hu
    have hl : last_writer c s rows cols q1 k = last_writer c s rows cols q2 k :=
      last_writer_perm_eq (hq1.trans hq2.symm) k (fun a ha b hb hda hdb =>
        hu a b (perm_num_items_mem hq1 a ha).1 (perm_num_items_mem hq1 a ha).2
          (perm_num_items_mem hq1 b hb).1 (perm_num_items_mem hq1 b hb).2 hda hdb)
    cases hw : last_writer c s rows cols q1 k with
    | none => rw [hn1 k hw, hn2 k (hl ▸ hw)]
    | some item => rw [hs1 k item hw, hs2 k item (hl ▸ hw)]
  refine ⟨out1, out2, h1, h2, hs1, hn1, hagree, ?_⟩
  intro hu
  exact List.ext_getElem? (fun k => hagree k (hu k))

/-- An instance of C8 as amended: a 2x2 image with `cos = 0`, `sin = 1`, executed in
row-major order and in the reverse order. -/
theorem last_write_wins_witness :
    ∃ out1 out2 : List Pixel,
      ImageRot_v1 (num_items 2 2) [1, 2, 3, 4] (hOutputImage 2 2) 0 1 2 2 = some out1 ∧
      ImageRot_v1 (num_items 2 2).reverse [1, 2, 3, 4] (hOutputImage 2 2) 0 1 2 2 =
        some out2 ∧
      (∀ (k : Nat) (item : Nat × Nat), last_writer 0 1 2 2 (num_items 2 2) k = some item →
        out1[k]? = ([1, 2, 3, 4] : List Pixel)[2 * item.1 + item.2]?) ∧
      (∀ k : Nat, last_writer 0 1 2 2 (num_items 2 2) k = none →
        out1[k]? = (hOutputImage 2 2)[k]?) ∧
      (∀ k : Nat,
        (∀ a b : Nat × Nat, a.1 < 2 → a.2 < 2 → b.1 < 2 → b.2 < 2 →
          dest_offset 0 1 2 2 a = some k → dest_offset 0 1 2 2 b = some k → a = b) →
        out1[k]? = out2[k]?) ∧
      ((∀ (k : Nat) (a b : Nat × Nat), a.1 < 2 → a.2 < 2 → b.1 < 2 → b.2 < 2 →
          dest_offset 0 1 2 2 a = some k → dest_offset 0 1 2 2 b = some k → a = b) →
        out1 = out2) :=
  last_write_wins 2 2 0 1 [1, 2, 3, 4] (hOutputImage 2 2) (num_items 2 2)
    (num_items 2 2).reverse (by decide) (by decide) (by norm_num) (by norm_num)
    (rotated_coords_defined (by norm_num [abs_le]) (by norm_num [abs_le]) (by norm_num)
      (by norm_num))
    (List.Perm.refl _) (List.reverse_perm _)

/-- C8 as stated fails on the code.  (a) With `cos = 2^31`, `sin = 0` the unit `(1, 0)` of
a 2x1 image has `x_rotated = 2^31`, whose conversion to `int` is undefined, so in either
execution order the run has no defined result and no final value at any offset.
(b) In a `(2^31+1)x1` image with `cos = 0`, `sin = 0` the id `(2^31, 0)` converts to
`row = -2^31`, its unit passes the bounds test with coordinates `(0, 0)` and reads outside
the source buffer, so the run in row-major order and in the reverse order has no defined
result. -/
theorem last_write_wins_counterexample :
    (ImageRot_v1 [(0, 0), (1, 0)] [1, 2] (hOutputImage 2 1) (2 ^ 31) 0 2 1 = none ∧
      ImageRot_v1 [(1, 0), (0, 0)] [1, 2] (hOutputImage 2 1) (2 ^ 31) 0 2 1 = none ∧
      x_rotated (2 ^ 31) 0 (1 : Nat) (0 : Nat) = some (2 ^ 31) ∧
      float_to_int (2 ^ 31) = none) ∧
    (ImageRot_v1 (num_items (2 ^ 31 + 1) 1) (List.replicate (2 ^ 31 + 1) 0)
        (hOutputImage (2 ^ 31 + 1) 1) 0 0 (2 ^ 31 + 1) 1 = none ∧
      ImageRot_v1 (num_items (2 ^ 31 + 1) 1).reverse (List.replicate (2 ^ 31 + 1) 0)
        (hOutputImage (2 ^ 31 + 1) 1) 0 0 (2 ^ 31 + 1) 1 = none) := by
  refine ⟨⟨by decide!, by decide!, by decide!, by decide!⟩, ?_⟩
  have hxy : rotated_coords 0 0 (size_to_int ((2 ^ 31, 0) : Nat × Nat).1)
      (size_to_int ((2 ^ 31, 0) : Nat × Nat).2) = some (0, 0) := by decide!
  have hchk : (decide ((0 : Int) ≥ 0) && decide (int_to_size 0 < 1) &&
      decide ((0 : Int) ≥ 0) && decide (int_to_size 0 < 2 ^ 31 + 1)) = true := by
    decide!
  have hidx : (List.replicate (2 ^ 31 + 1) (0 : Pixel)).length ≤
      (1 * int_to_size (size_to_int ((2 ^ 31, 0) : Nat × Nat).1) +
        int_to_size (size_to_int ((2 ^ 31, 0) : Nat × Nat).2)) % 2 ^ 64 := by
    rw [List.length_replicate]
    decide!
  have hmem : ((2 ^ 31, 0) : Nat × Nat) ∈ num_items (2 ^ 31 + 1) 1 :=
    (mem_num_items _ _ _).mpr ⟨by norm_num, by norm_num⟩
  exact ⟨run_none_of_unit_none (kernel_none_of_read_outside hxy hchk hidx) _ _ hmem,
    run_none_of_unit_none (kernel_none_of_read_outside hxy hchk hidx) _ _
      (List.mem_reverse.mpr hmem)⟩

/-! ### The angles 0 and 90 degrees -/

theorem offset_inj {m x y a b : Nat} (ha : a < m) (hb : b < m)
    (h : m * x + a = m * y + b) : x = y ∧ a = b := by
  have hm : 0 < m := Nat.lt_of_le_of_lt (Nat.zero_le a) ha
  have h1 : (m * x + a) / m = x := by
    rw [Nat.add_comm, Nat.add_mul_div_left _ _ hm, Nat.div_eq_of_lt ha, Nat.zero_add]
  have h2 : (m * y + b) / m = y := by
    rw [Nat.add_comm, Nat.add_mul_div_left _ _ hm, Nat.div_eq_of_lt hb, Nat.zero_add]
  have hxy : x = y := by rw [← h1, ← h2, h]
  subst hxy
  exact ⟨rfl, Nat.add_left_cancel h⟩

theorem dest_offset_angle_zero (rows cols : Nat) (item : Nat × Nat) (k : Nat)
    (h1 : item.1 ≤ 2 ^ 24) (h2 : item.2 ≤ 2 ^ 24) :
    dest_offset 1 0 rows cols item = some k ↔
      item.1 < cols ∧ item.2 < rows ∧ cols * item.2 + item.1 = k := by
  rw [dest_offset_eq_some_iff, size_to_int_of_lt (by omega), size_to_int_of_lt (by omega),
    rotated_coords_angle_zero h1 h2]
  constructor
  · rintro ⟨x2, y2, hxy, ⟨_, hb2, _, hb4⟩, hk⟩
    obtain ⟨rfl, rfl⟩ := Prod.mk.inj (Option.some.inj hxy)
    simp only [Int.toNat_ofNat] at hk
    exact ⟨by exact_mod_cast hb2, by exact_mod_cast hb4, hk⟩
  · rintro ⟨hb2, hb4, hk⟩
    refine ⟨item.1, item.2, rfl, ⟨Int.ofNat_nonneg _, by exact_mod_cast hb2,
      Int.ofNat_nonneg _, by exact_mod_cast hb4⟩, ?_⟩
    simp only [Int.toNat_ofNat]
    exact hk

theorem dest_offset_quarter_turn (rows cols : Nat) (item : Nat × Nat) (k : Nat)
    (h1 : item.1 ≤ 2 ^ 24) (h2 : item.2 ≤ 2 ^ 24) :
    dest_offset 0 1 rows cols item = some k ↔
      item.1 = 0 ∧ 0 < rows ∧ item.2 < cols ∧ item.2 = k := by
  rw [dest_offset_eq_some_iff, size_to_int_of_lt (by omega), size_to_int_of_lt (by omega),
    rotated_coords_quarter_turn h1 h2]
  constructor
  · rintro ⟨x2, y2, hxy, ⟨_, hb2, hb3, hb4⟩, hk⟩
    obtain ⟨rfl, rfl⟩ := Prod.mk.inj (Option.some.inj hxy)
    have hz : item.1 = 0 := by omega
    rw [hz] at hk hb4
    simp at hk hb4
    exact ⟨hz, hb4, by exact_mod_cast hb2, hk⟩
  · rintro ⟨hz, hr, hc, hk⟩
    refine ⟨item.2, -(item.1 : Int), rfl, ⟨Int.ofNat_nonneg _, by exact_mod_cast hc,
      by rw [hz]; simp, by rw [hz]; simpa using hr⟩, ?_⟩
    rw [hz]
    simp
    exact hk

/-- A run at angle 0 (`cos = 1`, `sin = 0`) in any execution order, for an image of at
most `2^24 + 1` rows and columns. -/
theorem run_angle_zero {src dst : List Pixel} {rows cols : Nat} {q : List (Nat × Nat)}
    (hsrc : src.length = rows * cols) (hdst : dst.length = rows * cols)
    (hrows : rows ≤ 2 ^ 24 + 1) (hcols : cols ≤ 2 ^ 24 + 1)
    (hq : q.Perm (num_items rows cols)) :
    ∃ out : List Pixel,
      ImageRot_v1 q src dst 1 0 rows cols = some out ∧ out.length = rows * cols ∧
      (∀ r c : Nat, r < min rows cols → c < min rows cols →
        out[cols * c + r]? = src[cols * r + c]?) ∧
      (∀ k : Nat, (∀ r c : Nat, r < min rows cols → c < min rows cols → k ≠ cols * c + r) →
        out[k]? = dst[k]?) := by
  have hdef : ∀ row col : Nat, row < rows → col < cols →
      rotated_coords 1 0 row col ≠ none := by
    intro row col hr hc
    rw [rotated_coords_angle_zero (by omega) (by omega)]
    exact fun h => Option.noConfusion h
  obtain ⟨out, hrun, hlen, hs, hn⟩ :=
    @run_getElem_opt src dst 1 0 rows cols q hsrc hdst (by omega) (by omega) hdef
      (perm_num_items_mem hq)
  refine ⟨out, hrun, hlen, ?_, ?_⟩
  · intro r c hr hc
    have hr1 : r < rows := lt_of_lt_of_le hr (min_le_left _ _)
    have hr2 : r < cols := lt_of_lt_of_le hr (min_le_right _ _)
    have hc1 : c < rows := lt_of_lt_of_le hc (min_le_left _ _)
    have hc2 : c < cols := lt_of_lt_of_le hc (min_le_right _ _)
    have hmem : ((r, c) : Nat × Nat) ∈ q :=
      hq.mem_iff.mpr ((mem_num_items rows cols (r, c)).mpr ⟨hr1, hc2⟩)
    have hd : dest_offset 1 0 rows cols (r, c) = some (cols * c + r) :=
      (dest_offset_angle_zero rows cols (r, c) _ (by show r ≤ _; omega)
        (by show c ≤ _; omega)).mpr ⟨hr2, hc1, rfl⟩
    have hl : last_writer 1 0 rows cols q (cols * c + r) = some (r, c) := by
      refine last_writer_eq_of_unique hmem hd ?_
      intro b hbq hb
      obtain ⟨hb5, hb6⟩ := perm_num_items_mem hq b hbq
      obtain ⟨hb1, _, hb3⟩ :=
        (dest_offset_angle_zero rows cols b _ (by omega) (by omega)).mp hb
      obtain ⟨h1, h2⟩ := offset_inj hb1 hr2 hb3
      exact Prod.ext h2 h1
    exact hs _ _ hl
  · intro k hk
    refine hn k ((last_writer_eq_none_iff 1 0 rows cols q k).mpr ?_)
    intro item hitem hd
    obtain ⟨h4, h5⟩ := perm_num_items_mem hq item hitem
    obtain ⟨h1, h2, h3⟩ :=
      (dest_offset_angle_zero rows cols item k (by omega) (by omega)).mp hd
    exact hk item.1 item.2 (lt_min h4 h1) (lt_min h2 h5) h3.symm

/-- A run at a quarter turn (`cos = 0`, `sin = 1`) in any execution order, for an image
of at most `2^24 + 1` rows and columns. -/
theorem run_quarter_turn {src dst : List Pixel} {rows cols : Nat} {q : List (Nat × Nat)}
    (hrows1 : 1 ≤ rows) (hsrc : src.length = rows * cols) (hdst : dst.length = rows * cols)
    (hrows : rows ≤ 2 ^ 24 + 1) (hcols : cols ≤ 2 ^ 24 + 1)
    (hq : q.Perm (num_items rows cols)) :
    ∃ out : List Pixel,
      ImageRot_v1 q src dst 0 1 rows cols = some out ∧ out.length = rows * cols ∧
      (∀ k : Nat, k < cols → out[k]? = src[k]?) ∧
      (∀ k : Nat, cols ≤ k → out[k]? = dst[k]?) := by
  have hdef : ∀ row col : Nat, row < rows → col < cols →
      rotated_coords 0 1 row col ≠ none := by
    intro row col hr hc
    rw [rotated_coords_quarter_turn (by omega) (by omega)]
    exact fun h => Option.noConfusion h
  obtain ⟨out, hrun, hlen, hs, hn⟩ :=
    @run_getElem_opt src dst 0 1 rows cols q hsrc hdst (by omega) (by omega) hdef
      (perm_num_items_mem hq)
  refine ⟨out, hrun, hlen, ?_, ?_⟩
  · intro k hk
    have hmem : ((0, k) : Nat × Nat) ∈ q :=
      hq.mem_iff.mpr ((mem_num_items rows cols (0, k)).mpr ⟨hrows1, hk⟩)
    have hd : dest_offset 0 1 rows cols (0, k) = some k :=
      (dest_offset_quarter_turn rows cols (0, k) k (by show 0 ≤ _; omega)
        (by show k ≤ _; omega)).mpr ⟨rfl, hrows1, hk, rfl⟩
    have hl : last_writer 0 1 rows cols q k = some (0, k) := by
      refine last_writer_eq_of_unique hmem hd ?_
      intro b hbq hb
      obtain ⟨hb5, hb6⟩ := perm_num_items_mem hq b hbq
      obtain ⟨hb1, _, _, hb4⟩ :=
        (dest_offset_quarter_turn rows cols b k (by omega) (by omega)).mp hb
      exact Prod.ext hb1 hb4
    have h := hs _ _ hl
    simpa using h
  · intro k hk
    refine hn k ((last_writer_eq_none_iff 0 1 rows cols q k).mpr ?_)
    intro item hitem hd
    obtain ⟨h4, h5⟩ := perm_num_items_mem hq item hitem
    obtain ⟨_, _, h3, h4'⟩ :=
      (dest_offset_quarter_turn rows cols item k (by omega) (by omega)).mp hd
    omega

/-- C9 as amended: angle 0 transposes.  With `cos = 1`, `sin = 0` the kernel computes
`x2 = row`, `y2 = col` for ids up to `2^24` and stores at offset `cols*y2 + x2`.  For
`rows, cols <= 2^24 + 1` (every id is a `float`), in any execution order, for all `r`, `c`
below `min rows cols` the destination satisfies `dst[cols*c + r] = src[cols*r + c]`, every
other destination offset keeps its initial value, and for a square image the destination
is the transpose of the source. -/
theorem angle_zero_transposes (rows cols : Nat) (src dst : List Pixel)
    (q : List (Nat × Nat)) (hsrc : src.length = rows * cols)
    (hdst : dst.length = rows * cols) (hrows : rows ≤ 2 ^ 24 + 1)
    (hcols : cols ≤ 2 ^ 24 + 1) (hq : q.Perm (num_items rows cols)) :
    (∀ row col : Nat, row ≤ 2 ^ 24 → col ≤ 2 ^ 24 →
      rotated_coords 1 0 row col = some ((row : Int), (col : Int))) ∧
    ∃ out : List Pixel,
      ImageRot_v1 q src dst 1 0 rows cols = some out ∧ out.length = rows * cols ∧
      (∀ r c : Nat, r < min rows cols → c < min rows cols →
        out[cols * c + r]? = src[cols * r + c]?) ∧
      (∀ k : Nat, (∀ r c : Nat, r < min rows cols → c < min rows cols → k ≠ cols * c + r) →
        out[k]? = dst[k]?) ∧
      (rows = cols → ∀ r c : Nat, r < rows → c < rows →
        out[rows * c + r]? = src[rows * r + c]?) := by
  refine ⟨fun row col h1 h2 => rotated_coords_angle_zero h1 h2, ?_⟩
  obtain ⟨out, hrun, hlen, hs, hn⟩ := run_angle_zero hsrc hdst hrows hcols hq
  refine ⟨out, hrun, hlen, hs, hn, ?_⟩
  intro he r c hr hc
  subst he
  exact hs r c (by simpa using hr) (by simpa using hc)

/-- An instance of C9 as amended: a 2x3 image at angle 0 executed in row-major order. -/
theorem angle_zero_transposes_witness :
    (∀ row col : Nat, row ≤ 2 ^ 24 → col ≤ 2 ^ 24 →
      rotated_coords 1 0 row col = some ((row : Int), (col : Int))) ∧
    ∃ out : List Pixel,
      ImageRot_v1 (num_items 2 3) [1, 2, 3, 4, 5, 6] (hOutputImage 2 3) 1 0 2 3 =
        some out ∧ out.length = 2 * 3 ∧
      (∀ r c : Nat, r < min 2 3 → c < min 2 3 →
        out[3 * c + r]? = ([1, 2, 3, 4, 5, 6] : List Pixel)[3 * r + c]?) ∧
      (∀ k : Nat, (∀ r c : Nat, r < min 2 3 → c < min 2 3 → k ≠ 3 * c + r) →
        out[k]? = (hOutputImage 2 3)[k]?) ∧
      (2 = 3 → ∀ r c : Nat, r < 2 → c < 2 →
        out[2 * c + r]? = ([1, 2, 3, 4, 5, 6] : List Pixel)[2 * r + c]?) :=
  angle_zero_transposes 2 3 [1, 2, 3, 4, 5, 6] (hOutputImage 2 3) (num_items 2 3)
    (by decide) (by decide) (by norm_num) (by norm_num) (List.Perm.refl _)

/-- C9 as stated fails on the code: `(float)16777217` is `16777216`, so in an image of
`2^24 + 2` rows and columns the unit `(2^24 + 1, 0)` at angle 0 has `x2 = 2^24`, not
`x2 = row`; it stores at offset `2^24`, the destination of the unit `(2^24, 0)` too, and
not at offset `cols*0 + (2^24 + 1)`. -/
theorem angle_zero_transposes_counterexample :
    to_float 16777217 = some 16777216 ∧
    rotated_coords 1 0 (16777217 : Nat) (0 : Nat) = some (16777216, 0) ∧
    dest_offset 1 0 (2 ^ 24 + 2) (2 ^ 24 + 2) (16777217, 0) = some 16777216 ∧
    dest_offset 1 0 (2 ^ 24 + 2) (2 ^ 24 + 2) (16777216, 0) = some 16777216 := by
  refine ⟨by decide!, by decide!, by decide!, by decide!⟩

/-- C3, evaluated on the code: at angle 0 (`cos = 1`, `sin = 0`) the source pixel
`(row, col) = (0, 1)` gets `x2 = 0`, `y2 = 1`, not `x2 = col`, `y2 = row`; the 2x2 image
`[1, 2, 3, 4]` run from the sentinel-filled output gives `[1, 3, 2, 4]`, and no execution
order gives back the source. -/
theorem angle_zero_not_identity :
    rotated_coords 1 0 (0 : Nat) (1 : Nat) = some (0, 1) ∧
    ImageRot_v1 (num_items 2 2) [1, 2, 3, 4] (hOutputImage 2 2) 1 0 2 2 =
      some [1, 3, 2, 4] ∧
    ∀ q : List (Nat × Nat), q.Perm (num_items 2 2) →
      ImageRot_v1 q [1, 2, 3, 4] (hOutputImage 2 2) 1 0 2 2 ≠ some [1, 2, 3, 4] := by
  refine ⟨by decide!, by decide!, ?_⟩
  intro q hq h
  obtain ⟨out, hrun, _, hs, _⟩ :=
    @run_angle_zero [1, 2, 3, 4] (hOutputImage 2 2) 2 2 q (by decide) (by decide)
      (by norm_num) (by norm_num) hq
  rw [hrun] at h
  have he : out = [1, 2, 3, 4] := Option.some.inj h
  subst he
  have h1 := hs 1 0 (by decide) (by decide)
  simp at h1

/-- C5 as amended: the quarter turn `cos = 0`, `sin = 1`.  The kernel maps the source
pixel `(row, col)` to `x2 = col`, `y2 = -row` for ids up to `2^24`.  For
`1 <= rows, cols <= 2^24 + 1` (every id is a `float`) exactly the pixels with `row = 0`
pass the bounds test and no two source pixels share a destination; in any execution order
the destination afterwards holds `src[col]` at every offset `col < cols` and its initial
value (the sentinel `1234` from `main`) at every other offset. -/
theorem quarter_turn_first_row (rows cols : Nat) (src dst : List Pixel)
    (q : List (Nat × Nat)) (hrows1 : 1 ≤ rows)
    (hsrc : src.length = rows * cols) (hdst : dst.length = rows * cols)
    (hrows : rows ≤ 2 ^ 24 + 1) (hcols : cols ≤ 2 ^ 24 + 1)
    (hq : q.Perm (num_items rows cols)) :
    (∀ row col : Nat, row ≤ 2 ^ 24 → col ≤ 2 ^ 24 →
      rotated_coords 0 1 row col = some ((col : Int), -(row : Int))) ∧
    (∀ (row col : Nat) (x2 y2 : Int), row < rows → col < cols →
      rotated_coords 0 1 row col = some (x2, y2) →
      ((0 ≤ x2 ∧ x2 < (cols : Int) ∧ 0 ≤ y2 ∧ y2 < (rows : Int)) ↔ row = 0)) ∧
    (∀ (a b : Nat × Nat) (k : Nat), a.1 < rows → a.2 < cols → b.1 < rows → b.2 < cols →
      dest_offset 0 1 rows cols a = some k → dest_offset 0 1 rows cols b = some k →
      a = b) ∧
    ∃ out : List Pixel,
      ImageRot_v1 q src dst 0 1 rows cols = some out ∧ out.length = rows * cols ∧
      (∀ k : Nat, k < cols → out[k]? = src[k]?) ∧
      (∀ k : Nat, cols ≤ k → out[k]? = dst[k]?) ∧
      (dst = hOutputImage rows cols → ∀ k : Nat, cols ≤ k → k < rows * cols →
        out[k]? = some 1234) := by
  refine ⟨fun row col h1 h2 => rotated_coords_quarter_turn h1 h2, ?_, ?_, ?_⟩
  · intro row col x2 y2 hrow hcol hxy
    rw [rotated_coords_quarter_turn (by omega) (by omega)] at hxy
    obtain ⟨rfl, rfl⟩ := Prod.mk.inj (Option.some.inj hxy)
    constructor
    · rintro ⟨_, _, h0, _⟩
      omega
    · intro h
      subst h
      have hr : (0 : Int) < (rows : Int) := by exact_mod_cast hrows1
      have hc : ((col : Nat) : Int) < (cols : Int) := by exact_mod_cast hcol
      exact ⟨Int.ofNat_nonneg col, hc, by simp, by simpa using hrows1⟩
  · intro a b k ha1 ha2 hb1 hb2 ha hb
    obtain ⟨ha1, _, _, ha4⟩ :=
      (dest_offset_quarter_turn rows cols a k (by omega) (by omega)).mp ha
    obtain ⟨hb1, _, _, hb4⟩ :=
      (dest_offset_quarter_turn rows cols b k (by omega) (by omega)).mp hb
    exact Prod.ext (ha1.trans hb1.symm) (ha4.trans hb4.symm)
  · obtain ⟨out, hrun, hlen, hs, hn⟩ := run_quarter_turn hrows1 hsrc hdst hrows hcols hq
    refine ⟨out, hrun, hlen, hs, hn, ?_⟩
    intro hd k hk hlt
    rw [hn k hk, hd, hOutputImage, List.getElem?_replicate, if_pos hlt]

/-- An instance of C5 as amended: the 4x4 buffer `1, 2, ..., 16` run in row-major order
from the sentinel-filled output; the first row is copied and every other cell holds
`1234`. -/
theorem quarter_turn_first_row_witness :
    ImageRot_v1 (num_items 4 4) [1, 2, 3, 4, 5, 6, 7, 8, 9, 10, 11, 12, 13, 14, 15, 16]
        (hOutputImage 4 4) 0 1 4 4 =
      some [1, 2, 3, 4, 1234, 1234, 1234, 1234, 1234, 1234, 1234, 1234, 1234, 1234, 1234,
        1234] ∧
    ∃ out : List Pixel,
      ImageRot_v1 (num_items 4 4) [1, 2, 3, 4, 5, 6, 7, 8, 9, 10, 11, 12, 13, 14, 15, 16]
        (hOutputImage 4 4) 0 1 4 4 = some out ∧ out.length = 4 * 4 ∧
      (∀ k : Nat, k < 4 →
        out[k]? = ([1, 2, 3, 4, 5, 6, 7, 8, 9, 10, 11, 12, 13, 14, 15, 16] : List Pixel)[k]?) ∧
      (∀ k : Nat, 4 ≤ k → out[k]? = (hOutputImage 4 4)[k]?) ∧
      (hOutputImage 4 4 = hOutputImage 4 4 → ∀ k : Nat, 4 ≤ k → k < 4 * 4 →
        out[k]? = some 1234) :=
  ⟨by decide!,
    (quarter_turn_first_row 4 4 [1, 2, 3, 4, 5, 6, 7, 8, 9, 10, 11, 12, 13, 14, 15, 16]
      (hOutputImage 4 4) (num_items 4 4) (by decide) (by decide) (by decide) (by norm_num)
      (by norm_num) (List.Perm.refl _)).2.2.2⟩

/-- C5 as stated fails on the code: `(float)16777217` is `16777216`, so in a
`1 x (2^24 + 2)` image the unit `(0, 2^24 + 1)` at the quarter turn has `x2 = 2^24`, not
`x2 = col`, and shares the destination offset `2^24` with the unit `(0, 2^24)`. -/
theorem quarter_turn_first_row_counterexample :
    to_float 16777217 = some 16777216 ∧
    rotated_coords 0 1 (0 : Nat) (16777217 : Nat) = some (16777216, 0) ∧
    dest_offset 0 1 1 (2 ^ 24 + 2) (0, 16777217) = some 16777216 ∧
    dest_offset 0 1 1 (2 ^ 24 + 2) (0, 16777216) = some 16777216 := by
  refine ⟨by decide!, by decide!, by decide!, by decide!⟩

/-! ### Collisions -/

/-- C10: collisions exist and make the result order dependent.  With `cos = 7/10`,
`sin = -7/10` on a 2x2 image the source pixels `(0, 0)` and `(1, 0)` both pass the bounds
test with rotated coordinates `(0, 0)`, hence destination offset `0`; when their source
values `src[0]` and `src[2]` differ, two execution orders of the four work items give
different final buffers. -/
theorem collision_order_dependent (src dst : List Pixel) (hsrc : src.length = 2 * 2)
    (hdst : dst.length = 2 * 2) (hne : src[0]? ≠ src[2]?) :
    rotated_coords (7/10) (-7/10) (0 : Nat) (0 : Nat) = some (0, 0) ∧
    rotated_coords (7/10) (-7/10) (1 : Nat) (0 : Nat) = some (0, 0) ∧
    dest_offset (7/10) (-7/10) 2 2 (0, 0) = some 0 ∧
    dest_offset (7/10) (-7/10) 2 2 (1, 0) = some 0 ∧
    [((0 : Nat), (0 : Nat)), (0, 1), (1, 0), (1, 1)].Perm (num_items 2 2) ∧
    [((0 : Nat), (1 : Nat)), (1, 0), (1, 1), (0, 0)].Perm (num_items 2 2) ∧
    ImageRot_v1 [(0, 0), (0, 1), (1, 0), (1, 1)] src dst (7/10) (-7/10) 2 2 ≠
      ImageRot_v1 [(0, 1), (1, 0), (1, 1), (0, 0)] src dst (7/10) (-7/10) 2 2 := by
  have hp1 : [((0 : Nat), (0 : Nat)), (0, 1), (1, 0), (1, 1)].Perm (num_items 2 2) := by
    decide
  have hp2 : [((0 : Nat), (1 : Nat)), (1, 0), (1, 1), (0, 0)].Perm (num_items 2 2) := by
    decide
  have hdef : ∀ row col : Nat, row < 2 → col < 2 →
      rotated_coords (7/10) (-7/10) row col ≠ none :=
    rotated_coords_defined (by norm_num [abs_le]) (by norm_num [abs_le]) (by norm_num)
      (by norm_num)
  refine ⟨by decide!, by decide!, by decide!, by decide!, hp1, hp2, ?_⟩
  obtain ⟨out1, h1, _, hs1, _⟩ :=
    @run_getElem_opt src dst (7/10) (-7/10) 2 2 _ hsrc hdst (by norm_num) (by norm_num)
      hdef (perm_num_items_mem hp1)
  obtain ⟨out2, h2, _, hs2, _⟩ :=
    @run_getElem_opt src dst (7/10) (-7/10) 2 2 _ hsrc hdst (by norm_num) (by norm_num)
      hdef (perm_num_items_mem hp2)
  have hl1 : last_writer (7/10) (-7/10) 2 2 [(0, 0), (0, 1), (1, 0), (1, 1)] 0 =
      some (1, 0) := by decide!
  have hl2 : last_writer (7/10) (-7/10) 2 2 [(0, 1), (1, 0), (1, 1), (0, 0)] 0 =
      some (0, 0) := by decide!
  have e1 := hs1 0 (1, 0) hl1
  have e2 := hs2 0 (0, 0) hl2
  rw [h1, h2]
  intro he
  have he' : out1 = out2 := Option.some.inj he
  rw [he'] at e1
  rw [e1] at e2
  exact hne e2.symm

/-- An instance of C10: the 2x2 image `[1, 2, 3, 4]` from the sentinel-filled output. -/
theorem collision_order_dependent_witness :
    ImageRot_v1 [(0, 0), (0, 1), (1, 0), (1, 1)] [1, 2, 3, 4] (hOutputImage 2 2)
        (7/10) (-7/10) 2 2 ≠
      ImageRot_v1 [(0, 1), (1, 0), (1, 1), (0, 0)] [1, 2, 3, 4] (hOutputImage 2 2)
        (7/10) (-7/10) 2 2 :=
  (collision_order_dependent [1, 2, 3, 4] (hOutputImage 2 2) (by decide) (by decide)
    (by decide)).2.2.2.2.2.2

theorem axis_of_sq_add_sq {c s : ℚ} (h : c ^ 2 + s ^ 2 = 1) (h0 : c = 0 ∨ s = 0) :
    ∃ ci si : Int, c = (ci : ℚ) ∧ s = (si : ℚ) ∧ |ci| ≤ 1 ∧ |si| ≤ 1 ∧
      ci * ci + si * si = 1 := by
  have sq_one : ∀ a : ℚ, a ^ 2 = 1 → a = 1 ∨ a = -1 := by
    intro a ha
    have : (a - 1) * (a + 1) = 0 := by ring_nf; linarith
    rcases mul_eq_zero.mp this with h1 | h1
    · left; linarith
    · right; linarith
  rcases h0 with hc | hs
  · rw [hc] at h
    rcases sq_one s (by linarith) with h1 | h1
    · exact ⟨0, 1, by simp [hc], by simp [h1], by decide, by decide, by decide⟩
    · exact ⟨0, -1, by simp [hc], by simp [h1], by decide, by decide, by decide⟩
  · rw [hs] at h
    rcases sq_one c (by linarith) with h1 | h1
    · exact ⟨1, 0, by simp [h1], by simp [hs], by decide, by decide, by decide⟩
    · exact ⟨-1, 0, by simp [h1], by simp [hs], by decide, by decide, by decide⟩

/-- C7: round trip of the rotation by theta followed by the rotation by -theta, as the
code computes it.  For an exact pair with `cos^2 + sin^2 = 1` (converted to `float` by
the parameter binding) and integer source coordinates of magnitude at most `2^17`, the
kernel transform with `(cos, sin)` followed by the kernel transform with `(cos, -sin)` is
defined and returns `(x3, y3)` with `|x3 - x1| <= 2`, `|y3 - y1| <= 2`, both deviations
strictly below `1 + |cos| + |sin|`; without the rounding and truncation steps the
composition returns `(x1, y1)` exactly. -/
theorem rotation_round_trip (c s : ℚ) (x1 y1 : Int) (h : c ^ 2 + s ^ 2 = 1)
    (hx1 : |x1| ≤ 2 ^ 17) (hy1 : |y1| ≤ 2 ^ 17) :
    ∃ x2 y2 x3 y3 : Int,
      rotated_coords c s x1 y1 = some (x2, y2) ∧
      rotated_coords c (-s) x2 y2 = some (x3, y3) ∧
      |x3 - x1| ≤ 2 ∧ |y3 - y1| ≤ 2 ∧
      |((x3 - x1 : Int) : ℚ)| < 1 + |c| + |s| ∧
      |((y3 - y1 : Int) : ℚ)| < 1 + |c| + |s| ∧
      rotate_exact c (-s) (rotate_exact c s ((x1 : ℚ), (y1 : ℚ))) =
        ((x1 : ℚ), (y1 : ℚ)) := by
  have hc : |c| ≤ 1 := abs_le_one_of_sq_add_sq h
  have hs : |s| ≤ 1 := abs_le_one_of_sq_add_sq (by rw [add_comm]; exact h)
  have hns : |-s| ≤ 1 := by rw [abs_neg]; exact hs
  have hsum := abs_add_abs_le_of_sq_add_sq h
  have hx1q : |(x1 : ℚ)| ≤ 2 ^ 17 := by
    have := intCast_abs_le (z := x1) (n := 2 ^ 17) (by exact_mod_cast hx1)
    simpa using this
  have hy1q : |(y1 : ℚ)| ≤ 2 ^ 17 := by
    have := intCast_abs_le (z := y1) (n := 2 ^ 17) (by exact_mod_cast hy1)
    simpa using this
  obtain ⟨x2, y2, e12, n1x, n1y⟩ := rotated_coords_near hc hs
    (le_trans hx1 (by norm_num)) (le_trans hy1 (by norm_num))
  -- the first pass stays within the range of the error bound
  have small : ∀ (a b : ℚ) (z : Int), |a| + |b| ≤ 3 / 2 →
      |(z : ℚ) - (a * x1 + b * y1)| < 1 + 1 / 10 → |z| ≤ 2 ^ 18 := by
    intro a b z hab hz
    have h1 : |a * (x1 : ℚ)| ≤ |a| * 2 ^ 17 := by
      rw [abs_mul]; exact mul_le_mul_of_nonneg_left hx1q (abs_nonneg a)
    have h2 : |b * (y1 : ℚ)| ≤ |b| * 2 ^ 17 := by
      rw [abs_mul]; exact mul_le_mul_of_nonneg_left hy1q (abs_nonneg b)
    have h3 := abs_add (a * (x1 : ℚ)) (b * (y1 : ℚ))
    have h4 := abs_add ((z : ℚ) - (a * x1 + b * y1)) (a * x1 + b * y1)
    rw [sub_add_cancel] at h4
    have h5 : |(z : ℚ)| < 196610 := by nlinarith
    have h6 : ((|z| : Int) : ℚ) < ((196610 : Int) : ℚ) := by
      rw [Int.cast_abs]; exact_mod_cast h5
    have h7 : |z| < 196610 := by exact_mod_cast h6
    have : (196610 : Int) ≤ 2 ^ 18 := by norm_num
    omega
  have hx2 : |x2| ≤ 2 ^ 18 := small c s x2 hsum n1x
  have hy2 : |y2| ≤ 2 ^ 18 :=
    small (-s) c y2 (by rw [abs_neg, add_comm]; exact hsum) n1y
  obtain ⟨x3, y3, e23, n2x, n2y⟩ := rotated_coords_near hc hns hx2 hy2
  have hcs : c ^ 2 + (-s) ^ 2 = 1 := by rw [neg_sq]; exact h
  have hsc : s ^ 2 + c ^ 2 = 1 := by rw [add_comm]; exact h
  have ax : c * (x2 : ℚ) + -s * (y2 : ℚ) =
      (x1 : ℚ) + c * ((x2 : ℚ) - (c * x1 + s * y1)) +
        (-s) * ((y2 : ℚ) - (-s * x1 + c * y1)) := by
    linear_combination (x1 : ℚ) * h
  have ay : - -s * (x2 : ℚ) + c * (y2 : ℚ) =
      (y1 : ℚ) + s * ((x2 : ℚ) - (c * x1 + s * y1)) +
        c * ((y2 : ℚ) - (-s * x1 + c * y1)) := by
    linear_combination (y1 : ℚ) * h
  rw [ax] at n2x
  rw [ay] at n2y
  have dx : |x3 - x1| ≤ 2 := near_of_errors hcs n1x n1y n2x
  have dy : |y3 - y1| ≤ 2 := near_of_errors hsc n1x n1y n2y
  have strict : |((x3 - x1 : Int) : ℚ)| < 1 + |c| + |s| ∧
      |((y3 - y1 : Int) : ℚ)| < 1 + |c| + |s| := by
    by_cases h0 : c = 0 ∨ s = 0
    · obtain ⟨ci, si, rfl, rfl, hci, hsi, hcsi⟩ := axis_of_sq_add_sq h h0
      obtain ⟨r1, r2⟩ := round_trip_axis ci si x1 y1 hci hsi hcsi hx1 hy1
      rw [r1] at e12
      obtain ⟨rfl, rfl⟩ := Prod.mk.inj (Option.some.inj e12)
      rw [r2] at e23
      obtain ⟨rfl, rfl⟩ := Prod.mk.inj (Option.some.inj e23)
      have hpos : (0 : ℚ) < 1 + |(ci : ℚ)| + |(si : ℚ)| := by positivity
      simp only [sub_self, Int.cast_zero, abs_zero]
      exact ⟨hpos, hpos⟩
    · push_neg at h0
      have hgt := one_lt_abs_add_abs h h0.1 h0.2
      have qx : |((x3 - x1 : Int) : ℚ)| ≤ 2 := by
        have : ((|x3 - x1| : Int) : ℚ) ≤ ((2 : Int) : ℚ) := by exact_mod_cast dx
        rw [Int.cast_abs] at this
        exact_mod_cast this
      have qy : |((y3 - y1 : Int) : ℚ)| ≤ 2 := by
        have : ((|y3 - y1| : Int) : ℚ) ≤ ((2 : Int) : ℚ) := by exact_mod_cast dy
        rw [Int.cast_abs] at this
        exact_mod_cast this
      constructor <;> linarith
  refine ⟨x2, y2, x3, y3, e12, e23, dx, dy, strict.1, strict.2, ?_⟩
  unfold rotate_exact
  refine Prod.ext ?_ ?_
  · show c * (c * (x1 : ℚ) + s * (y1 : ℚ)) + -s * (-s * (x1 : ℚ) + c * (y1 : ℚ)) = (x1 : ℚ)
    linear_combination (x1 : ℚ) * h
  · show - -s * (c * (x1 : ℚ) + s * (y1 : ℚ)) + c * (-s * (x1 : ℚ) + c * (y1 : ℚ)) =
      (y1 : ℚ)
    linear_combination (y1 : ℚ) * h

/-- An instance of C7 as amended: `cos = 3/5`, `sin = 4/5` (converted to the floats
`0.6f`, `0.8f`) and the source coordinate `(3, 1)`. -/
theorem rotation_round_trip_witness :
    ∃ x2 y2 x3 y3 : Int,
      rotated_coords (3 / 5) (4 / 5) 3 1 = some (x2, y2) ∧
      rotated_coords (3 / 5) (-(4 / 5)) x2 y2 = some (x3, y3) ∧
      |x3 - 3| ≤ 2 ∧ |y3 - 1| ≤ 2 ∧
      |((x3 - 3 : Int) : ℚ)| < 1 + |(3 / 5 : ℚ)| + |(4 / 5 : ℚ)| ∧
      |((y3 - 1 : Int) : ℚ)| < 1 + |(3 / 5 : ℚ)| + |(4 / 5 : ℚ)| ∧
      rotate_exact (3 / 5) (-(4 / 5)) (rotate_exact (3 / 5) (4 / 5)
        (((3 : Int) : ℚ), ((1 : Int) : ℚ))) = (((3 : Int) : ℚ), ((1 : Int) : ℚ)) :=
  rotation_round_trip (3 / 5) (4 / 5) 3 1 (by norm_num) (by decide) (by decide)

/-- C7 as stated fails on the code: `cos = 1`, `sin = 0` satisfy `cos^2 + sin^2 = 1`, and
`(float)(2^26 + 3)` is `2^26`, so the source coordinate `(2^26 + 3, 0)` goes to
`(2^26, 0)` and comes back as `(2^26, 0)`, a deviation of `3`. -/
theorem rotation_round_trip_counterexample :
    (1 : ℚ) ^ 2 + (0 : ℚ) ^ 2 = 1 ∧
    rotated_coords 1 0 (2 ^ 26 + 3) 0 = some (2 ^ 26, 0) ∧
    rotated_coords 1 (-0) (2 ^ 26) 0 = some (2 ^ 26, 0) ∧
    ¬ (|(2 : Int) ^ 26 - (2 ^ 26 + 3)| ≤ 2) := by
  refine ⟨by norm_num, by decide!, by decide!, by decide⟩

end ImageConv
